import Mathlib

/-!
# Threshold EdDSA round engine: keygen round 3 and resharing round 1

A shallow embedding of `eddsa/keygen/round_3.go` and
`eddsa/resharing/round_1_old_step_1.go`.

Conventions of the embedding.

* A Go call that can end in a run-time panic (nil dereference, failed type
  assertion, index out of range, division by zero) returns `Option`; `none`
  is the panic.
* `*big.Int` values are `Int`; values obtained by `SetBytes` are `Nat`.
* Go `int` values (indices, lengths, thresholds) are `Nat`; the one `int` sum
  whose wrap-around changes the control flow, `round.Threshold()+1` in the
  guard of resharing round 1, is computed by `intAdd` in 64 bits.
* Unbuffered channels (`out`, `end`) are the lists of values sent so far.
* Curve points are an abstract type `P`; the curve library, the commitment,
  proof and VSS modules are not part of the two files and are taken as the
  fields of a parameter record.
-/

namespace TssLib

/-- Party identifier (`tss.PartyID`): its position in the sorted committee and its key
scalar (`KeyInt()`). -/
structure PartyID where
  Index : Nat
  Key : Nat
deriving DecidableEq, Repr

/-- The causes of the errors built in the two files, one constructor per message text;
`lib` stands for an error value handed back by a library call. -/
inductive Cause where
  | alreadyStarted
  | deCommitFailed
  | proofUnmarshalFailed
  | proofVerifyFailed
  | vssVerifyFailed
  | addPjVsOffCurve
  | addBigXjOffCurve
  | pubKeyOffCurve
  | insufficientKeys
  | unmarshalPubFailed
  | pubKeyMismatch
  | lib (code : Nat)
deriving DecidableEq, Repr

/-- The error value `*tss.Error`: the wrapped causes (one for a plain error, several for a
`multierror`) and the culprit list. -/
structure TssError where
  causes : List Cause
  culprits : List PartyID
deriving DecidableEq, Repr

/-- Modelled from the spec: `WrapError` (a method of the round base type, which is declared
outside the two files) wraps the causes into the round error that names the given culprit
parties, zero or more, in the order given. -/
def WrapError (causes : List Cause) (culprits : List PartyID) : TssError :=
  ⟨causes, culprits⟩

/-- A parsed protocol message (`tss.ParsedMessage`) with content type `C`. -/
structure ParsedMessage (C : Type) where
  From : PartyID
  To : List PartyID
  IsBroadcast : Bool
  Content : C
deriving DecidableEq, Repr

set_option linter.dupNamespace false in
/-- A VSS share (`vss.Share`): the threshold, the key scalar it was evaluated at and the
value. -/
structure Share where
  Threshold : Nat
  ID : Nat
  Share : Int
deriving DecidableEq, Repr

/-- Modelled from the spec: `resetOK`, `allOldOK` and `allNewOK` (methods of the round base
type, which is declared outside the two files) overwrite every slot of a delivery bitset
with one value; `setAll false` is the reset, `setAll true` marks every peer as delivered. -/
def setAll (b : Bool) (ok : List Bool) : List Bool :=
  ok.map (fun _ => b)

/-! ## Resharing, round 1 -/

namespace Resharing

/-- Payload of the round-1 broadcast: the coordinates of the group public key and the hash
commitment to the sender's new VSS commitment vector. -/
structure DGRound1Message where
  EDDSAPubX : Int
  EDDSAPubY : Int
  VCommitment : Nat
deriving DecidableEq, Repr

/-- Message contents seen by the resharing party; `other` covers the message types of the
later rounds. -/
inductive Content where
  | dgRound1 (m : DGRound1Message)
  | other (tag : Nat)
deriving DecidableEq, Repr

/-- The library calls made by resharing round 1, as a parameter record over the point
type `P`. -/
structure Lib (P : Type) where
  /-- `signing.PrepareForSigning(ec, i, pax, xi, ks)`; `none` is a panic. -/
  PrepareForSigning : Nat → Nat → Option Int → List Nat → Option Int
  /-- `vss.Create(ec, threshold, secret, indexes)`: commitments and shares, or an error. -/
  Create : Nat → Int → List Nat → Except Cause (List P × List Share)
  /-- `crypto.FlattenECPoints`. -/
  FlattenECPoints : List P → Except Cause (List Int)
  /-- `commitments.NewHashCommitment(parts...)`: the pair `(C, D)`. -/
  NewHashCommitment : List Int → Nat × List Int
  /-- Coordinate `X()` of a point. -/
  X : P → Int
  /-- Coordinate `Y()` of a point. -/
  Y : P → Int
  /-- `SortedPartyIDs.Exclude`. -/
  Exclude : List PartyID → PartyID → List PartyID
  /-- `DGRound1Message.UnmarshalEDDSAPub(ec)`; `none` is the error return. -/
  UnmarshalEDDSAPub : DGRound1Message → Option P
  /-- `ECPoint.Equals`. -/
  Equals : P → P → Bool

/-- The part of `keygen.LocalPartySaveData` used by resharing round 1. -/
structure LocalPartySaveData (P : Type) where
  Xi : Option Int
  Ks : List Nat
  EDDSAPub : Option P
deriving DecidableEq

/-- Resharing `localTempData`, restricted to the fields round 1 touches. -/
structure LocalTempData where
  VD : List Int
  NewShares : List Share
  dgRound1Messages : List (Option (ParsedMessage Content))
deriving DecidableEq

/-- The fields of `tss.ReSharingParameters` read by round 1. -/
structure ReSharingParameters where
  PartyID : TssLib.PartyID
  OldParties : List TssLib.PartyID
  NewParties : List TssLib.PartyID
  Threshold : Nat
  NewThreshold : Nat
  IsOldCommittee : Bool
  IsNewCommittee : Bool
deriving DecidableEq

/-- The round object (`round1`, an embedded `base`). -/
structure Round1 (P : Type) where
  params : ReSharingParameters
  temp : LocalTempData
  input : LocalPartySaveData P
  save : LocalPartySaveData P
  out : List (ParsedMessage Content)
  endCh : List (LocalPartySaveData P)
  oldOK : List Bool
  newOK : List Bool
  started : Bool
  number : Nat
deriving DecidableEq

/-- Constructor `newRound1`: both bitsets all false, not started, round number 1. -/
def newRound1 {P : Type} (params : ReSharingParameters) (input save : LocalPartySaveData P)
    (temp : LocalTempData) : Round1 P :=
  { params := params, temp := temp, input := input, save := save, out := [], endCh := [],
    oldOK := List.replicate params.OldParties.length false,
    newOK := List.replicate params.NewParties.length false,
    started := false, number := 1 }

/-- Method `round1.CanAccept`: a `DGRound1Message` that is a broadcast. -/
def CanAccept (msg : ParsedMessage Content) : Bool :=
  match msg.Content with
  | .dgRound1 _ => msg.IsBroadcast
  | .other _ => false

/-- Modelled from the spec: `NewDGRound1Message` (declared with the message types, outside
the two files) builds the old-to-new broadcast carrying the group public key and the
commitment. -/
def NewDGRound1Message {P : Type} (L : Lib P) (dest : List PartyID) (sender : PartyID)
    (pub : P) (C : Nat) : ParsedMessage Content :=
  { From := sender, To := dest, IsBroadcast := true,
    Content := .dgRound1 ⟨L.X pub, L.Y pub, C⟩ }

/-- Addition of two Go `int` values (64 bits, two's complement) that are not negative:
the sum modulo `2^64`, read as a negative number from `2^63` on. -/
def intAdd (a b : Nat) : Int :=
  if (a + b) % 18446744073709551616 < 9223372036854775808 then
    (((a + b) % 18446744073709551616 : Nat) : Int)
  else
    (((a + b) % 18446744073709551616 : Nat) : Int) - 18446744073709551616

/-- Method `round1.Start` (lines 27-77). The result is the round after the call and the
returned error (`none` for `nil`). The threshold is a Go `int` that is not negative; the
sum `round.Threshold()+1` of line 46 is an `int` addition, which wraps around at the
largest `int`. -/
def Start {P : Type} (L : Lib P) (round : Round1 P) : Option (Round1 P × Option TssError) :=
  if round.started then
    some (round, some (WrapError [.alreadyStarted] []))
  else
    let round := { round with number := 1, started := true,
                              oldOK := setAll false round.oldOK,
                              newOK := setAll true (setAll false round.newOK) }
    if !round.params.IsOldCommittee then
      some (round, none)
    else
      let round := { round with oldOK := setAll true round.oldOK }
      let Pi := round.params.PartyID
      let i := Pi.Index
      let xi := round.input.Xi
      let ks := round.input.Ks
      if intAdd round.params.Threshold 1 > (ks.length : Int) then
        some (round, some (WrapError [.insufficientKeys] [Pi]))
      else
        let newKs := round.params.NewParties.map (fun p => p.Key)
        match L.PrepareForSigning i round.params.OldParties.length xi ks with
        | none => none
        | some wi =>
          match L.Create round.params.NewThreshold wi newKs with
          | .error e => some (round, some (WrapError [e] [Pi]))
          | .ok (vi, shares) =>
            match L.FlattenECPoints vi with
            | .error e => some (round, some (WrapError [e] [Pi]))
            | .ok flatVis =>
              let vCmt := L.NewHashCommitment flatVis
              let round := { round with temp := { round.temp with VD := vCmt.2,
                                                                  NewShares := shares } }
              match round.input.EDDSAPub with
              | none => none
              | some pub =>
                let r1msg := NewDGRound1Message L
                  (L.Exclude round.params.NewParties Pi) Pi pub vCmt.1
                if i < round.temp.dgRound1Messages.length then
                  some ({ round with
                            temp := { round.temp with
                              dgRound1Messages :=
                                round.temp.dgRound1Messages.set i (some r1msg) },
                            out := round.out ++ [r1msg] }, none)
                else none

/-- The receive loop of `round1.Update` (lines 93-114) from sender index `j` on, over the
remaining buffer slots `msgs`. The result is the round after the call, the `ready` flag and
the returned error. -/
def updateLoop {P : Type} (L : Lib P) :
    Nat → List (Option (ParsedMessage Content)) → Round1 P →
      Option (Round1 P × Bool × Option TssError)
  | _, [], round => some (round, true, none)
  | j, msg :: rest, round =>
    match round.oldOK.get? j with
    | none => none
    | some true => updateLoop L (j + 1) rest round
    | some false =>
      match msg with
      | none => some (round, false, none)
      | some m =>
        if !CanAccept m then some (round, false, none)
        else
          let round := { round with oldOK := round.oldOK.set j true }
          match round.temp.dgRound1Messages.get? 0 with
          | some (some m0) =>
            match m0.Content with
            | .dgRound1 r1msg =>
              match L.UnmarshalEDDSAPub r1msg with
              | none => some (round, false, some (WrapError [.unmarshalPubFailed] [m.From]))
              | some candidate =>
                match round.save.EDDSAPub with
                | some saved =>
                  if !L.Equals candidate saved then
                    some (round, false, some (WrapError [.pubKeyMismatch] [m.From]))
                  else
                    updateLoop L (j + 1) rest
                      { round with save := { round.save with EDDSAPub := some candidate } }
                | none =>
                  updateLoop L (j + 1) rest
                    { round with save := { round.save with EDDSAPub := some candidate } }
            | .other _ => none
          | _ => none

/-- Method `round1.Update` (lines 87-116). -/
def Update {P : Type} (L : Lib P) (round : Round1 P) :
    Option (Round1 P × Bool × Option TssError) :=
  if !round.params.IsNewCommittee then some (round, true, none)
  else updateLoop L 0 round.temp.dgRound1Messages round

/-- Method `round1.NextRound` (lines 118-121): clears `started`; the successor wraps the
same round object. -/
def NextRound {P : Type} (round : Round1 P) : Round1 P :=
  { round with started := false }

/-! ### Concrete inputs for resharing round 1 -/

/-- A small instance of the library record with integers as points, used to run the round
on concrete inputs: a point is its first coordinate and a key whose second coordinate is
not zero does not decode. -/
def intLib : Lib Int where
  PrepareForSigning := fun _ _ xi _ => xi
  Create := fun _ _ _ => .ok ([], [])
  FlattenECPoints := fun vs => .ok vs
  NewHashCommitment := fun parts => (parts.length, parts)
  X := fun p => p
  Y := fun _ => 0
  Exclude := fun ps p => ps.filter (fun x => x.Key != p.Key)
  UnmarshalEDDSAPub := fun m => if m.EDDSAPubY = 0 then some m.EDDSAPubX else none
  Equals := fun a b => decide (a = b)

/-- Old committee of two parties. -/
def oldCommittee : List PartyID := [⟨0, 1⟩, ⟨1, 2⟩]

/-- New committee of two parties. -/
def newCommittee : List PartyID := [⟨0, 101⟩, ⟨1, 102⟩]

/-- Parameters of the first new-committee party, which is not in the old committee. -/
def newMemberParams : ReSharingParameters :=
  { PartyID := ⟨0, 101⟩, OldParties := oldCommittee, NewParties := newCommittee,
    Threshold := 1, NewThreshold := 1, IsOldCommittee := false, IsNewCommittee := true }

/-- Parameters of a party that sits in both committees, at old index 0. -/
def dualMemberParams : ReSharingParameters :=
  { PartyID := ⟨0, 1⟩, OldParties := oldCommittee, NewParties := [⟨0, 1⟩, ⟨1, 102⟩],
    Threshold := 1, NewThreshold := 1, IsOldCommittee := true, IsNewCommittee := true }

/-- The round-1 broadcast of `sender` carrying the public key with coordinates `(x, y)`. -/
def bcast (sender : PartyID) (x y : Int) : ParsedMessage Content :=
  { From := sender, To := newCommittee, IsBroadcast := true,
    Content := .dgRound1 ⟨x, y, 0⟩ }

/-- An empty save record. -/
def emptySave : LocalPartySaveData Int :=
  { Xi := none, Ks := [], EDDSAPub := none }

/-- The save record of an old-committee party holding share 3 of the key 7. -/
def oldSave : LocalPartySaveData Int :=
  { Xi := some 3, Ks := [1, 2], EDDSAPub := some 7 }

/-- A fresh round of the new-committee party whose buffer holds the given slots. -/
def newMemberRound (slots : List (Option (ParsedMessage Content))) : Round1 Int :=
  newRound1 newMemberParams emptySave emptySave
    { VD := [], NewShares := [], dgRound1Messages := slots }

/-- Buffer in which old party 0 broadcasts the key 7 and old party 1 the key 9. -/
def divergentBuffer : List (Option (ParsedMessage Content)) :=
  [some (bcast ⟨0, 1⟩ 7 0), some (bcast ⟨1, 2⟩ 9 0)]

/-- Buffer in which old party 0 broadcasts a key that does not decode and old party 1 has
sent nothing yet. -/
def undecodableBuffer : List (Option (ParsedMessage Content)) :=
  [some (bcast ⟨0, 1⟩ 7 1), none]

/-- Buffer in which both old parties broadcast the key 7. -/
def agreeingBuffer : List (Option (ParsedMessage Content)) :=
  [some (bcast ⟨0, 1⟩ 7 0), some (bcast ⟨1, 2⟩ 7 0)]

/-- The new-committee party over the agreeing buffer, after `Start`. -/
def startedRound : Round1 Int :=
  { newMemberRound agreeingBuffer with started := true, newOK := [true, true] }

/-- The new-committee party over the agreeing buffer, after `Start` and one `Update`. -/
def acceptedRound : Round1 Int :=
  { startedRound with oldOK := [true, true], save := { emptySave with EDDSAPub := some 7 } }

/-- A fresh round of the party that sits in both committees, with an empty buffer. -/
def dualMemberRound : Round1 Int :=
  newRound1 dualMemberParams oldSave emptySave
    { VD := [], NewShares := [], dgRound1Messages := [none, none] }

/-- The observable outcome of an `Update`: ready flag, error, `oldOK`, `newOK` and the
saved public key. -/
def observe {P : Type} (res : Option (Round1 P × Bool × Option TssError)) :
    Option (Bool × Option TssError × List Bool × List Bool × Option P) :=
  res.map (fun x => (x.2.1, x.2.2, x.1.oldOK, x.1.newOK, x.1.save.EDDSAPub))

/-- The slot `i` of the buffer holds a message that `CanAccept` admits. -/
def slotAcceptable {P : Type} (r : Round1 P) (i : Nat) : Prop :=
  ∃ m, r.temp.dgRound1Messages.get? i = some (some m) ∧ CanAccept m = true

/-- The states of a round-1 object in a run: built by `newRound1` over a buffer with one
slot per old-committee party and started, then driven by `Update` calls, between which the
transport may fill an empty slot of the buffer. -/
inductive Reachable {P : Type} (L : Lib P) : Round1 P → Prop
  | start (params : ReSharingParameters) (input save : LocalPartySaveData P)
      (temp : LocalTempData) (r : Round1 P) (e : Option TssError) :
      temp.dgRound1Messages.length = params.OldParties.length →
      Start L (newRound1 params input save temp) = some (r, e) → Reachable L r
  | update (r r1 : Round1 P) (ready : Bool) (e : Option TssError) :
      Reachable L r → Update L r = some (r1, ready, e) → Reachable L r1
  | deliver (r : Round1 P) (j : Nat) (m : ParsedMessage Content) :
      Reachable L r → r.temp.dgRound1Messages.get? j = some none →
      Reachable L { r with temp := { r.temp with
        dgRound1Messages := r.temp.dgRound1Messages.set j (some m) } }

/-- Run `Start` and then `Update` `k + 1` times, keeping the outcome of the last
`Update`. -/
def startThenUpdates {P : Type} (L : Lib P) (round : Round1 P) :
    Nat → Option (Round1 P × Bool × Option TssError)
  | 0 => (Start L round).bind (fun s => Update L s.1)
  | k + 1 => (startThenUpdates L round k).bind (fun s => Update L s.1)

/-- The transport stores the message `m` in slot `j` of the round-1 buffer. -/
def deliver {P : Type} (r : Round1 P) (j : Nat) (m : ParsedMessage Content) : Round1 P :=
  { r with temp := { r.temp with
      dgRound1Messages := r.temp.dgRound1Messages.set j (some m) } }

/-- Parameters of the first old-committee party, which is not in the new committee. -/
def oldMemberParams : ReSharingParameters :=
  { PartyID := ⟨0, 1⟩, OldParties := oldCommittee, NewParties := newCommittee,
    Threshold := 1, NewThreshold := 1, IsOldCommittee := true, IsNewCommittee := false }

/-- A library instance whose `Create` shares the secret `w` with the polynomial `w + x`:
commitments `[w, 1]` and, for every key `k`, the share `w + k`. -/
def vssLib : Lib Int :=
  { intLib with
    Create := fun t w ks => .ok ([w, 1], ks.map (fun k => ⟨t, k, w + (k : Int)⟩)) }

/-- A fresh round of the old-committee party holding share 3 of the key 7. -/
def oldMemberRound : Round1 Int :=
  newRound1 oldMemberParams oldSave emptySave
    { VD := [], NewShares := [], dgRound1Messages := [none, none] }

/-- The broadcast the old-committee party emits in round 1. -/
def oldMemberMsg : ParsedMessage Content :=
  { From := ⟨0, 1⟩, To := newCommittee, IsBroadcast := true,
    Content := .dgRound1 ⟨7, 0, 2⟩ }

/-- The old-committee party after `Start`. -/
def oldMemberStarted : Round1 Int :=
  { oldMemberRound with
      started := true, oldOK := [true, true], newOK := [true, true],
      temp := { VD := [3, 1], NewShares := [⟨1, 101, 104⟩, ⟨1, 102, 105⟩],
                dgRound1Messages := [some oldMemberMsg, none] },
      out := [oldMemberMsg] }

/-- A fresh round of an old-committee party whose save data holds a single key although
the threshold is 1. -/
def shortKeysRound : Round1 Int :=
  newRound1 oldMemberParams { Xi := some 3, Ks := [1], EDDSAPub := some 7 } emptySave
    { VD := [], NewShares := [], dgRound1Messages := [none, none] }

/-- A fresh round of the old-committee party holding two keys, with the threshold set to
the largest Go `int`, `2^63 - 1`. -/
def maxThresholdRound : Round1 Int :=
  newRound1 { oldMemberParams with Threshold := 9223372036854775807 } oldSave emptySave
    { VD := [], NewShares := [], dgRound1Messages := [none, none] }


end Resharing

/-! ## Keygen, round 3 -/

namespace Keygen

/-- Message contents buffered by the keygen party. -/
inductive Content where
  | kgRound1 (Commitment : Nat)
  | kgRound2Message1 (Share : Nat)
  | kgRound2Message2 (DeCommitment : List Nat) (Proof : List Nat)
deriving DecidableEq, Repr

/-- The library calls made by keygen round 3, as a parameter record over the point type `P`
and the proof type `Pf`. -/
structure Lib (P Pf : Type) where
  /-- The group order `EC().Params().N`. -/
  N : Nat
  /-- `HashCommitDecommit{C, D}.DeCommit()`: the flag and the recovered parts (`none` is a
  nil slice). -/
  DeCommit : Nat → List Nat → Bool × Option (List Nat)
  /-- `crypto.UnFlattenECPoints(ec, flat)`. -/
  UnFlattenECPoints : List Nat → Except Cause (List P)
  /-- Cofactor clearing `ECPoint.EightInvEight`. -/
  EightInvEight : P → P
  /-- `KGRound2Message2.UnmarshalZKProof(ec)`; `none` is the error return. -/
  UnmarshalZKProof : List Nat → Option Pf
  /-- `ZKProof.Verify(point)`. -/
  ProofVerify : Pf → P → Bool
  /-- `Share.Verify(ec, threshold, vs)`. -/
  ShareVerify : Share → Nat → List P → Bool
  /-- `ECPoint.Add`: the point handed back and whether an error came with it. -/
  Add : P → P → P × Bool
  /-- `ECPoint.ScalarMult`. -/
  ScalarMult : P → Nat → P
  /-- Coordinate `X()` of a point. -/
  X : P → Int
  /-- Coordinate `Y()` of a point. -/
  Y : P → Int
  /-- `crypto.NewECPoint(ec, x, y)`; `none` is the error return. -/
  NewECPoint : Int → Int → Option P

/-- Keygen `localTempData`, restricted to the fields round 3 reads. -/
structure LocalTempData (P : Type) where
  shares : List Share
  vs : List P
  KGCs : List Nat
  kgRound2Message1s : List (Option (ParsedMessage Content))
  kgRound2Message2s : List (Option (ParsedMessage Content))
deriving DecidableEq

/-- The save record `LocalPartySaveData`; a nil pointer is `none`. -/
structure LocalPartySaveData (P : Type) where
  Xi : Option Int
  Ks : List Nat
  BigXj : List (Option P)
  EDDSAPub : Option P
deriving DecidableEq

/-- The round object (`round3`, an embedded `base`) with the parameters it reads. -/
structure Round3 (P : Type) where
  Parties : List PartyID
  PartyID : TssLib.PartyID
  PartyCount : Nat
  Threshold : Nat
  temp : LocalTempData P
  save : LocalPartySaveData P
  out : List (ParsedMessage Content)
  endCh : List (LocalPartySaveData P)
  ok : List Bool
  started : Bool
  number : Nat
deriving DecidableEq

/-- The value sent by one verification goroutine (`vssOut`). -/
structure VssOut (P : Type) where
  unWrappedErr : Option Cause
  pjVs : Option (List P)
deriving DecidableEq

/-- Modelled from the spec: `common.ModInt(N).Mul` (declared outside the two files)
multiplies and reduces modulo the group order, `z * k mod q`. -/
def modQMul (N z k : Nat) : Nat :=
  (z * k) % N

/-- The expression `round.temp.kgRound2Message1s[j].Content().(*KGRound2Message1)`
followed by `UnmarshalShare()`. -/
def r2msg1Share {P : Type} (temp : LocalTempData P) (j : Nat) : Option Nat :=
  match temp.kgRound2Message1s.get? j with
  | some (some msg) =>
    match msg.Content with
    | .kgRound2Message1 share => some share
    | _ => none
  | _ => none

/-- The loop of lines 36-43 from index `j` on, over the remaining parties; `PIdx` is our
own index. -/
def sumShares {P : Type} (temp : LocalTempData P) (PIdx : Nat) :
    Nat → List PartyID → Int → Option Int
  | _, [], xi => some xi
  | j, _ :: rest, xi =>
    if j = PIdx then sumShares temp PIdx (j + 1) rest xi
    else
      match r2msg1Share temp j with
      | none => none
      | some share => sumShares temp PIdx (j + 1) rest (xi + share)

/-- Lines 34-44: the value stored in `round.save.Xi`, for the group order `N`, the parties
`Ps` and our index `PIdx`. -/
def calcXi {P : Type} (N : Nat) (temp : LocalTempData P) (PIdx : Nat) (Ps : List PartyID) :
    Option Int :=
  match temp.shares.get? PIdx with
  | none => none
  | some own =>
    match sumShares temp PIdx 0 Ps own.Share with
    | none => none
    | some xi => if N = 0 then none else some (xi % (N : Int))

/-- Lines 47-50: `Vc` starts as our own first `t + 1` commitment points, `t` being the
threshold. -/
def initVc {P : Type} (temp : LocalTempData P) (t : Nat) : Option (List P) :=
  if t + 1 ≤ temp.vs.length then some (temp.vs.take (t + 1)) else none

/-- The body of the goroutine of lines 69-112 for peer `j`; `self` is `round.PartyID()` and
`t` is `round.Threshold()`. The cofactor loop of lines 82-84 runs before the error of
`UnFlattenECPoints` is looked at; on an error the slice handed back is empty and the loop
does nothing. -/
def verifyPeer {P Pf : Type} (L : Lib P Pf) (temp : LocalTempData P) (self : PartyID)
    (t : Nat) (j : Nat) : Option (VssOut P) :=
  match temp.KGCs.get? j, temp.kgRound2Message2s.get? j with
  | some KGCj, some (some msg) =>
    match msg.Content with
    | .kgRound2Message2 KGDj proofBytes =>
      match L.DeCommit KGCj KGDj with
      | (true, some flatPolyGs) =>
        match L.UnFlattenECPoints flatPolyGs with
        | .error err => some ⟨some err, none⟩
        | .ok unflat =>
          let PjVs := unflat.map L.EightInvEight
          match L.UnmarshalZKProof proofBytes with
          | none => some ⟨some .proofUnmarshalFailed, none⟩
          | some proof =>
            match PjVs.get? 0 with
            | none => none
            | some PjV0 =>
              if !L.ProofVerify proof PjV0 then some ⟨some .proofVerifyFailed, none⟩
              else
                match r2msg1Share temp j with
                | none => none
                | some share =>
                  let PjShare : Share := { Threshold := t, ID := self.Key, Share := share }
                  if !L.ShareVerify PjShare t PjVs then some ⟨some .vssVerifyFailed, none⟩
                  else some ⟨none, some PjVs⟩
      | _ => some ⟨some .deCommitFailed, none⟩
    | _ => none
  | _, _ => none

/-- Lines 64-113 and the receives of line 123: `vssResults`, slot by slot from index `j`
on; our own slot keeps the zero value. -/
def runPeers {P Pf : Type} (L : Lib P Pf) (temp : LocalTempData P) (self : PartyID)
    (t : Nat) : Nat → List PartyID → Option (List (VssOut P))
  | _, [] => some []
  | j, _ :: rest =>
    if j = self.Index then
      (runPeers L temp self t (j + 1) rest).map (fun tl => ⟨none, none⟩ :: tl)
    else
      match verifyPeer L temp self t j with
      | none => none
      | some res => (runPeers L temp self t (j + 1) rest).map (fun tl => res :: tl)

/-- Lines 118-128: the culprits of the verification sweep, from index `j` on. -/
def vssCulprits {P : Type} (PIdx : Nat) :
    Nat → List PartyID → List (VssOut P) → List PartyID
  | j, Pj :: rest, res :: results =>
    if j = PIdx then vssCulprits PIdx (j + 1) rest results
    else if res.unWrappedErr.isSome then Pj :: vssCulprits PIdx (j + 1) rest results
    else vssCulprits PIdx (j + 1) rest results
  | _, _, _ => []

/-- Lines 149-154: add peer `Pj`'s points into `Vc` for `c` from `c` on, `k` steps. -/
def addPjVs {P Pf : Type} (L : Lib P Pf) (Pj : PartyID) (PjVs : List P) :
    Nat → Nat → List P × List PartyID → Option (List P × List PartyID)
  | _, 0, acc => some acc
  | c, k + 1, (Vc, culprits) =>
    match Vc.get? c, PjVs.get? c with
    | some Vcc, some PjVc =>
      let (sum, err) := L.Add Vcc PjVc
      addPjVs L Pj PjVs (c + 1) k
        (Vc.set c sum, if err then culprits ++ [Pj] else culprits)
    | _, _ => none

/-- Lines 143-155: the sweep over the peers, from index `j` on. -/
def aggregateVc {P Pf : Type} (L : Lib P Pf) (PIdx t : Nat) :
    Nat → List PartyID → List (VssOut P) → List P × List PartyID →
      Option (List P × List PartyID)
  | j, Pj :: rest, res :: results, acc =>
    if j = PIdx then aggregateVc L PIdx t (j + 1) rest results acc
    else
      match res.pjVs with
      | none => none
      | some PjVs =>
        match addPjVs L Pj PjVs 0 (t + 1) acc with
        | none => none
        | some acc' => aggregateVc L PIdx t (j + 1) rest results acc'
  | _, [], _, acc => some acc
  | _, _ :: _, [], _ => none

/-- Lines 170-178: the evaluation loop for one party, for `c` from `c` on, `k` steps; the
state is the running point, the multiplier `z` and the culprit list. -/
def evalBigXj {P Pf : Type} (L : Lib P Pf) (Vc : List P) (Pj : PartyID) :
    Nat → Nat → P × Nat × List PartyID → Option (P × Nat × List PartyID)
  | _, 0, acc => some acc
  | c, k + 1, (BigXj, z, culprits) =>
    match Vc.get? c with
    | none => none
    | some Vcc =>
      let z := modQMul L.N z Pj.Key
      let (sum, err) := L.Add BigXj (L.ScalarMult Vcc z)
      evalBigXj L Vc Pj (c + 1) k (sum, z, if err then culprits ++ [Pj] else culprits)

/-- Lines 167-180: the loop over `j < PartyCount()`, from index `j` on, `k` steps; the
state is the slice `bigXj`, which shares its storage with `round.save.BigXj`, and the
culprit list. -/
def computeBigXj {P Pf : Type} (L : Lib P Pf) (Parties : List PartyID) (Vc : List P)
    (t : Nat) :
    Nat → Nat → List (Option P) × List PartyID → Option (List (Option P) × List PartyID)
  | _, 0, acc => some acc
  | j, k + 1, (bigXj, culprits) =>
    match Parties.get? j, Vc.get? 0 with
    | some Pj, some Vc0 =>
      match evalBigXj L Vc Pj 1 t (Vc0, 1, culprits) with
      | none => none
      | some (BigXj, _, culprits) =>
        if j < bigXj.length then
          computeBigXj L Parties Vc t (j + 1) k (bigXj.set j (some BigXj), culprits)
        else none
    | _, _ => none

/-- Method `round3.Start` (lines 23-199). The result is the round after the call and the
returned error (`none` for `nil`). -/
def Start {P Pf : Type} (L : Lib P Pf) (round : Round3 P) :
    Option (Round3 P × Option TssError) :=
  if round.started then
    some (round, some (WrapError [.alreadyStarted] []))
  else
    let round := { round with number := 3, started := true, ok := setAll false round.ok }
    let Ps := round.Parties
    let PIdx := round.PartyID.Index
    match calcXi L.N round.temp PIdx Ps with
    | none => none
    | some xi =>
      let round := { round with save := { round.save with Xi := some xi } }
      match initVc round.temp round.Threshold with
      | none => none
      | some Vc =>
        match runPeers L round.temp round.PartyID round.Threshold 0 Ps with
        | none => none
        | some vssResults =>
          let culprits := vssCulprits PIdx 0 Ps vssResults
          if culprits.length > 0 then
            some (round,
              some (WrapError (vssResults.filterMap (fun res => res.unWrappedErr)) culprits))
          else
            match aggregateVc L PIdx round.Threshold 0 Ps vssResults (Vc, []) with
            | none => none
            | some (Vc, culprits) =>
              if culprits.length > 0 then
                some (round, some (WrapError [.addPjVsOffCurve] culprits))
              else
                match computeBigXj L Ps Vc round.Threshold 0 round.PartyCount
                    (round.save.BigXj, []) with
                | none => none
                | some (bigXj, culprits) =>
                  let round := { round with save := { round.save with BigXj := bigXj } }
                  if culprits.length > 0 then
                    some (round, some (WrapError [.addBigXjOffCurve] culprits))
                  else
                    match Vc.get? 0 with
                    | none => none
                    | some Vc0 =>
                      match L.NewECPoint (L.X Vc0) (L.Y Vc0) with
                      | none => some (round, some (WrapError [.pubKeyOffCurve] []))
                      | some eddsaPubKey =>
                        let round :=
                          { round with save := { round.save with EDDSAPub := some eddsaPubKey } }
                        some ({ round with endCh := round.endCh ++ [round.save] }, none)

/-- Method `round3.CanAccept` (lines 201-204). -/
def CanAccept {P : Type} (_round : Round3 P) (_msg : ParsedMessage Content) : Bool :=
  false

/-- Method `round3.Update` (lines 206-209): the round after the call, the `ready` flag and
the returned error. -/
def Update {P : Type} (round : Round3 P) : Round3 P × Bool × Option TssError :=
  (round, false, none)

/-- Method `round3.NextRound` (lines 211-213): `none` is the terminal `nil`. -/
def NextRound {P : Type} (_round : Round3 P) : Option (Round3 P) :=
  none


/-- The slot `j` of `vssResults` after the verification sweep: the zero value at our own
index, the value sent by peer `j`'s goroutine elsewhere. -/
def peerOut {P Pf : Type} (L : Lib P Pf) (temp : LocalTempData P) (self : PartyID)
    (t : Nat) (j : Nat) : VssOut P :=
  if j = self.Index then ⟨none, none⟩
  else (verifyPeer L temp self t j).getD ⟨none, none⟩

/-- Peer `j`'s decommitted, cofactor-cleared commitment vector, as handed to the
aggregation (empty when the peer was rejected). -/
def peerVs {P Pf : Type} (L : Lib P Pf) (temp : LocalTempData P) (self : PartyID)
    (t : Nat) (j : Nat) : List P :=
  (peerOut L temp self t j).pjVs.getD []

/-- The round as `Start` leaves it after line 44: number, started flag and bitset set, and
`xi` stored in the save record. -/
def afterXi {P : Type} (round : Round3 P) (xi : Int) : Round3 P :=
  { round with number := 3, started := true, ok := setAll false round.ok,
               save := { round.save with Xi := some xi } }

/-- The round as `Start` leaves it after the loop of lines 167-180 wrote `bigXj`. -/
def afterBigXj {P : Type} (round : Round3 P) (xi : Int) (bigXj : List (Option P)) :
    Round3 P :=
  { afterXi round xi with save := { (afterXi round xi).save with BigXj := bigXj } }

/-- The round as `Start` leaves it on success: the public key stored and the save record
sent on the `end` channel. -/
def afterSave {P : Type} (round : Round3 P) (xi : Int) (bigXj : List (Option P)) (pub : P) :
    Round3 P :=
  { afterBigXj round xi bigXj with
      save := { (afterBigXj round xi bigXj).save with EDDSAPub := some pub },
      endCh := round.endCh ++
        [{ (afterBigXj round xi bigXj).save with EDDSAPub := some pub }] }

/-- Peer `j`'s verification failed: its goroutine sent an error. -/
def peerFailed {P Pf : Type} (L : Lib P Pf) (temp : LocalTempData P) (self : PartyID)
    (t : Nat) (j : Nat) : Bool :=
  (peerOut L temp self t j).unWrappedErr.isSome

/-! ### Concrete inputs for keygen round 3 -/

/-- The state of `Vc` and of the culprit list after the commitment sweep of lines 143-155
over the slots left by the verification sweep. -/
def aggregated {P Pf : Type} (L : Lib P Pf) (round : Round3 P) :
    Option (List P × List PartyID) :=
  aggregateVc L round.PartyID.Index round.Threshold 0 round.Parties
    ((List.range' 0 round.Parties.length).map
      (peerOut L round.temp round.PartyID round.Threshold))
    (round.temp.vs.take (round.Threshold + 1), [])

/-- The key scalar of the party at index `j` of the committee (0 when there is none). -/
def keyAt (Ps : List PartyID) (j : Nat) : Nat :=
  ((Ps.get? j).map (fun p => p.Key)).getD 0

/-- The aggregated commitment polynomial evaluated at the key `k`, as the specification
writes it: `Vc[0] + Σ_{c=1..t} (k^c mod N) · Vc[c]`. -/
def commitmentEval {P : Type} [AddCommMonoid P] (N : Nat) (Vc : List P) (t k : Nat) : P :=
  Vc.getD 0 0 + ∑ c in Finset.Ico 1 (t + 1), (k ^ c % N) • Vc.getD c 0

/-- The Lagrange coefficient at 0 of party `i` over the keys of the parties in `S`, in the
scalar field: the product over `j ∈ S`, `j ≠ i`, of `k_j / (k_j - k_i)`. -/
def lagrangeAtZero (N : Nat) (k : Nat → Nat) (S : Finset Nat) (i : Nat) : ZMod N :=
  ∏ j in S.erase i, (k j : ZMod N) * ((k j : ZMod N) - (k i : ZMod N))⁻¹

/-- Value at `x` of the polynomial with coefficients `coef 0, ..., coef t`. -/
def polyEval (coef : Nat → Nat) (t x : Nat) : Nat :=
  ((List.range (t + 1)).map (fun c => coef c * x ^ c)).sum

/-- An all-honest keygen ceremony on entry to round 3: the group has positive order `N`
and `N · G = 0`, the library adds and multiplies in the group, the committee `Ps` has more
than `t` parties, and each party `i` holds its round object `round i` in which its own
share and the share received from every peer `j` are the values `f_j(k_i) mod N` of the
degree-`t` polynomials with coefficients `coef j`, its own commitments are `coef i c · G`,
and every peer `j` passes verification with the vector `coef j c · G`. -/
structure HonestKeygen {P Pf : Type} [AddCommGroup P] (L : Lib P Pf) (G : P)
    (Ps : List PartyID) (t : Nat) (coef : Nat → Nat → Nat) (round : Nat → Round3 P) :
    Prop where
  pos : 0 < L.N
  order : L.N • G = 0
  add_ok : ∀ a b, L.Add a b = (a + b, false)
  mul_ok : ∀ p z, L.ScalarMult p z = z • p
  new_ok : ∀ p, L.NewECPoint (L.X p) (L.Y p) = some p
  enough : t + 1 ≤ Ps.length
  started : ∀ i, i < Ps.length → (round i).started = false
  parties : ∀ i, i < Ps.length → (round i).Parties = Ps
  index : ∀ i, i < Ps.length → (round i).PartyID.Index = i
  count : ∀ i, i < Ps.length → (round i).PartyCount = Ps.length
  threshold : ∀ i, i < Ps.length → (round i).Threshold = t
  slots : ∀ i, i < Ps.length → (round i).save.BigXj.length = Ps.length
  own_share : ∀ i, i < Ps.length →
    ((round i).temp.shares.get? i).map (fun sh => sh.Share)
      = some ((polyEval (coef i) t (keyAt Ps i) % L.N : Nat) : Int)
  peer_share : ∀ i, i < Ps.length → ∀ j, j < Ps.length → j ≠ i →
    r2msg1Share (round i).temp j = some (polyEval (coef j) t (keyAt Ps i) % L.N)
  own_vs : ∀ i, i < Ps.length → ∀ c, c < t + 1 →
    (round i).temp.vs.get? c = some (coef i c • G)
  peer_vs : ∀ i, i < Ps.length → ∀ j, j < Ps.length → j ≠ i →
    verifyPeer L (round i).temp (round i).PartyID t j
      = some ⟨none, some ((List.range (t + 1)).map (fun c => coef j c • G))⟩

/-- A small instance of the library record: the group is `ZMod 7` with generator 1, a
commitment is the sum of its parts, a proof is the discrete logarithm itself, and the share
check is the Feldman equation. -/
def modLib : Lib (ZMod 7) (List Nat) where
  N := 7
  DeCommit := fun C D => (decide (C = D.sum), some D)
  UnFlattenECPoints := fun flat =>
    if flat.all (fun x => decide (x < 7)) then .ok (flat.map (fun x => (x : ZMod 7)))
    else .error (.lib 1)
  EightInvEight := fun p => p
  UnmarshalZKProof := fun bytes => if bytes = [] then none else some bytes
  ProofVerify := fun pf p => decide (pf = [p.val])
  ShareVerify := fun sh t vs =>
    decide (sh.Threshold = t) &&
      decide (((sh.Share : Int) : ZMod 7)
        = ((vs.enum.map (fun p => p.2 * (sh.ID : ZMod 7) ^ p.1)).sum))
  Add := fun a b => (a + b, false)
  ScalarMult := fun p z => z • p
  X := fun p => (p.val : Int)
  Y := fun _ => 0
  NewECPoint := fun x y => if y = 0 then some (x : ZMod 7) else none

/-- Three parties with the key scalars 1, 2, 3. -/
def demoParties : List PartyID := [⟨0, 1⟩, ⟨1, 2⟩, ⟨2, 3⟩]

/-- The secret polynomials of the three parties: `2 + 3x`, `1 + x` and `5 + 5x`. -/
def demoCoef (j c : Nat) : Nat :=
  match j, c with
  | 0, 0 => 2
  | 0, 1 => 3
  | 1, 0 => 1
  | 1, 1 => 1
  | 2, 0 => 5
  | 2, 1 => 5
  | _, _ => 0

/-- Party `i` on entry to round 3 of the three-party ceremony with threshold 1, every
peer `j` having sent its share plus `delta j`. -/
def demoRoundWith (delta : Nat → Nat) (i : Nat) : Round3 (ZMod 7) :=
  { Parties := demoParties, PartyID := ⟨i, i + 1⟩, PartyCount := 3, Threshold := 1,
    temp :=
      { shares := demoParties.map
          (fun p => ⟨1, p.Key, polyEval (demoCoef i) 1 p.Key % 7⟩),
        vs := (List.range 2).map (fun c => (demoCoef i c : ZMod 7)),
        KGCs := demoParties.map (fun p => demoCoef p.Index 0 + demoCoef p.Index 1),
        kgRound2Message1s := demoParties.map
          (fun p => if p.Index = i then none
            else some ⟨p, [⟨i, i + 1⟩], false,
              .kgRound2Message1 ((polyEval (demoCoef p.Index) 1 (i + 1) + delta p.Index) % 7)⟩),
        kgRound2Message2s := demoParties.map
          (fun p => some ⟨p, demoParties, true,
            .kgRound2Message2 [demoCoef p.Index 0, demoCoef p.Index 1] [demoCoef p.Index 0]⟩) },
    save := { Xi := none, Ks := [1, 2, 3], BigXj := [none, none, none], EDDSAPub := none },
    out := [], endCh := [], ok := [false, false, false], started := false, number := 2 }

/-- Party `i` of the all-honest ceremony. -/
def demoRound (i : Nat) : Round3 (ZMod 7) :=
  demoRoundWith (fun _ => 0) i

/-- The library instance `modLib` with an `Add` that reports an error whenever the sum is
the identity. -/
def zeroFailLib : Lib (ZMod 7) (List Nat) :=
  { modLib with Add := fun a b => (a + b, decide (a + b = 0)) }

/-- The library instance `modLib` with an `Add` that reports an error whenever the point
added is `5 · G`. -/
def oneFailLib : Lib (ZMod 7) (List Nat) :=
  { modLib with Add := fun a b => (a + b, decide (b = 5)) }

/-- Party 0 of the three-party ceremony when both peers send a share that is off by
one. -/
def tamperedRound : Round3 (ZMod 7) :=
  demoRoundWith (fun _ => 1) 0

/-- The round-2 message 2 of peer 1 in the three-party ceremony. -/
def demoMsg2 : ParsedMessage Content :=
  ⟨⟨1, 2⟩, demoParties, true, .kgRound2Message2 [1, 1] [1]⟩

end Keygen

/-! ## Theorems: resharing round 1 -/

namespace Resharing

/-- One iteration of the receive loop, by cases: the sender is skipped, the loop waits for
the sender, the sender is marked and an error is returned, or the sender is marked, the
key saved and the loop goes on. -/
theorem updateLoop_cons_cases {P : Type} (L : Lib P) (msg : Option (ParsedMessage Content))
    (rest : List (Option (ParsedMessage Content))) (j : Nat) (r r1 : Round1 P)
    (res : Bool × Option TssError)
    (h : updateLoop L j (msg :: rest) r = some (r1, res)) :
    (r.oldOK.get? j = some true ∧ updateLoop L (j + 1) rest r = some (r1, res)) ∨
    (r.oldOK.get? j = some false ∧
      (((msg = none ∨ ∃ m, msg = some m ∧ CanAccept m = false) ∧ r1 = r ∧
          res = (false, none)) ∨
       (∃ m, msg = some m ∧ CanAccept m = true ∧
          ((∃ e, r1 = { r with oldOK := r.oldOK.set j true } ∧ res = (false, some e)) ∨
           (∃ cand, updateLoop L (j + 1) rest
              { r with oldOK := r.oldOK.set j true,
                       save := { r.save with EDDSAPub := some cand } } = some (r1, res)))))) := by
  simp only [updateLoop] at h
  split at h
  · exact absurd h (by simp)
  · rename_i hj
    exact Or.inl ⟨hj, h⟩
  · rename_i hj
    refine Or.inr ⟨hj, ?_⟩
    split at h
    · simp only [Option.some.injEq, Prod.mk.injEq] at h
      exact Or.inl ⟨Or.inl rfl, h.1.symm, h.2.symm⟩
    · rename_i m
      split at h
      · rename_i hacc
        simp only [Option.some.injEq, Prod.mk.injEq] at h
        refine Or.inl ⟨Or.inr ⟨m, rfl, ?_⟩, h.1.symm, h.2.symm⟩
        simpa using hacc
      · rename_i hacc
        have hacc' : CanAccept m = true := by simpa using hacc
        refine Or.inr ⟨m, rfl, hacc', ?_⟩
        split at h
        · split at h
          · split at h
            · simp only [Option.some.injEq, Prod.mk.injEq] at h
              exact Or.inl ⟨_, h.1.symm, h.2.symm⟩
            · split at h
              · split at h
                · simp only [Option.some.injEq, Prod.mk.injEq] at h
                  exact Or.inl ⟨_, h.1.symm, h.2.symm⟩
                · exact Or.inr ⟨_, h⟩
              · exact Or.inr ⟨_, h⟩
          · exact absurd h (by simp)
        · exact absurd h (by simp)

/-- Setting a slot to true keeps every true slot true. -/
theorem slot_set_true (ok : List Bool) (j i : Nat) (hi : ok.get? i = some true) :
    (ok.set j true).get? i = some true := by
  rw [List.get?_eq_getElem?] at hi ⊢
  rw [List.getElem?_set]
  split
  · rename_i hij
    subst hij
    have : j < ok.length := (List.getElem?_eq_some_iff.mp hi).1
    simp [this]
  · exact hi

/-- Setting slot `j` of a bitset that has a slot `j` makes it true. -/
theorem slot_set_self (ok : List Bool) (j : Nat) (b : Bool) (hj : ok.get? j = some b) :
    (ok.set j true).get? j = some true := by
  rw [List.get?_eq_getElem?] at hj ⊢
  have : j < ok.length := (List.getElem?_eq_some_iff.mp hj).1
  simp [List.getElem?_set, this]

/-- The receive loop only ever sets slots of `oldOK` and the saved key: the bitset keeps
its length and its true slots, and every other part of the round is untouched. -/
theorem updateLoop_frame {P : Type} (L : Lib P) :
    ∀ (msgs : List (Option (ParsedMessage Content))) (j : Nat) (r r1 : Round1 P)
      (res : Bool × Option TssError),
      updateLoop L j msgs r = some (r1, res) →
        r1.oldOK.length = r.oldOK.length ∧
        (∀ i, r.oldOK.get? i = some true → r1.oldOK.get? i = some true) ∧
        r1.newOK = r.newOK ∧ r1.temp = r.temp ∧ r1.params = r.params ∧
        r1.input = r.input ∧ r1.out = r.out ∧ r1.endCh = r.endCh ∧
        r1.started = r.started ∧ r1.number = r.number := by
  intro msgs
  induction msgs with
  | nil =>
    intro j r r1 res h
    simp only [updateLoop, Option.some.injEq, Prod.mk.injEq] at h
    obtain ⟨rfl, -⟩ := h
    simp
  | cons msg rest ih =>
    intro j r r1 res h
    rcases updateLoop_cons_cases L msg rest j r r1 res h with
      ⟨-, h'⟩ | ⟨-, ⟨-, rfl, -⟩ | ⟨m, -, -, ⟨e, rfl, -⟩ | ⟨cand, h'⟩⟩⟩
    · exact ih _ _ _ _ h'
    · simp
    · simp only [List.length_set, and_self, and_true, true_and]
      exact fun i hi => slot_set_true _ _ _ hi
    · have := ih _ _ _ _ h'
      simp only [List.length_set] at this
      obtain ⟨h1, h2, h3⟩ := this
      exact ⟨h1, fun i hi => h2 i (slot_set_true _ _ _ hi), h3⟩

/-- A receive loop that ended without error ends the same way, in the same state, when it
is run again on the state it left. -/
theorem updateLoop_idem {P : Type} (L : Lib P) :
    ∀ (msgs : List (Option (ParsedMessage Content))) (j : Nat) (r r1 : Round1 P)
      (ready : Bool),
      updateLoop L j msgs r = some (r1, ready, none) →
        updateLoop L j msgs r1 = some (r1, ready, none) := by
  intro msgs
  induction msgs with
  | nil =>
    intro j r r1 ready h
    simp only [updateLoop, Option.some.injEq, Prod.mk.injEq] at h
    obtain ⟨-, rfl, -⟩ := h
    simp [updateLoop]
  | cons msg rest ih =>
    intro j r r1 ready h
    rcases updateLoop_cons_cases L msg rest j r r1 _ h with
      ⟨hj, h'⟩ | ⟨hj, ⟨-, rfl, -⟩ | ⟨m, -, -, ⟨e, -, he⟩ | ⟨cand, h'⟩⟩⟩
    · have hj1 : r1.oldOK.get? j = some true := (updateLoop_frame L _ _ _ _ _ h').2.1 j hj
      simp only [updateLoop, hj1]
      exact ih _ _ _ _ h'
    · exact h
    · simp at he
    · have hj1 : r1.oldOK.get? j = some true :=
        (updateLoop_frame L _ _ _ _ _ h').2.1 j (slot_set_self _ _ _ hj)
      simp only [updateLoop, hj1]
      exact ih _ _ _ _ h'

/-- A receive loop that returns ready has every slot it ranged over set. -/
theorem updateLoop_ready {P : Type} (L : Lib P) :
    ∀ (msgs : List (Option (ParsedMessage Content))) (j : Nat) (r r1 : Round1 P)
      (e : Option TssError),
      updateLoop L j msgs r = some (r1, true, e) →
        ∀ i, j ≤ i → i < j + msgs.length → r1.oldOK.get? i = some true := by
  intro msgs
  induction msgs with
  | nil =>
    intro j r r1 e _ i h1 h2
    simp at h2
    omega
  | cons msg rest ih =>
    intro j r r1 e h i h1 h2
    simp only [List.length_cons] at h2
    rcases updateLoop_cons_cases L msg rest j r r1 _ h with
      ⟨hj, h'⟩ | ⟨hj, ⟨-, -, hres⟩ | ⟨m, -, -, ⟨e', -, hres⟩ | ⟨cand, h'⟩⟩⟩
    · rcases Nat.eq_or_lt_of_le h1 with rfl | hlt
      · exact (updateLoop_frame L _ _ _ _ _ h').2.1 j hj
      · exact ih _ _ _ _ h' i hlt (by omega)
    · simp at hres
    · simp at hres
    · rcases Nat.eq_or_lt_of_le h1 with rfl | hlt
      · exact (updateLoop_frame L _ _ _ _ _ h').2.1 j (slot_set_self _ _ _ hj)
      · exact ih _ _ _ _ h' i hlt (by omega)


/-- Every slot the receive loop marks holds an acceptable message. -/
theorem updateLoop_accepted {P : Type} (L : Lib P) :
    ∀ (msgs : List (Option (ParsedMessage Content))) (j : Nat) (r r1 : Round1 P)
      (res : Bool × Option TssError),
      updateLoop L j msgs r = some (r1, res) →
      (∀ i, msgs.get? i = r.temp.dgRound1Messages.get? (j + i)) →
      (∀ i, r.oldOK.get? i = some true → slotAcceptable r i) →
      ∀ i, r1.oldOK.get? i = some true → slotAcceptable r i := by
  intro msgs
  induction msgs with
  | nil =>
    intro j r r1 res h _ hinv
    simp only [updateLoop, Option.some.injEq, Prod.mk.injEq] at h
    obtain ⟨rfl, -⟩ := h
    exact hinv
  | cons msg rest ih =>
    intro j r r1 res h hbuf hinv
    have hrest : ∀ i, rest.get? i = r.temp.dgRound1Messages.get? (j + 1 + i) := by
      intro i
      have := hbuf (i + 1)
      simp only [List.get?_cons_succ] at this
      rw [this]
      congr 1
      omega
    have hhead : r.temp.dgRound1Messages.get? j = some msg := by
      have := hbuf 0
      simpa using this.symm
    have hset : ∀ m, msg = some m → CanAccept m = true →
        ∀ i, (r.oldOK.set j true).get? i = some true → slotAcceptable r i := by
      intro m hm hacc i hi
      by_cases hij : j = i
      · subst hij
        exact ⟨m, by rw [hhead, hm], hacc⟩
      · apply hinv
        rw [List.get?_eq_getElem?] at hi ⊢
        rwa [List.getElem?_set_ne hij] at hi
    rcases updateLoop_cons_cases L msg rest j r r1 res h with
      ⟨-, h'⟩ | ⟨-, ⟨-, rfl, -⟩ | ⟨m, hm, hacc, ⟨e, rfl, -⟩ | ⟨cand, h'⟩⟩⟩
    · exact ih _ _ _ _ h' hrest hinv
    · exact hinv
    · exact hset m hm hacc
    · have := ih _ _ _ _ h' hrest (hset m hm hacc)
      exact this

/-- What `Start` leaves behind on a round that was not started: the parameters and the
buffer length are kept, `newOK` is all true, and `oldOK` is all true for an old-committee
party and all false for any other. -/
theorem start_effect {P : Type} (L : Lib P) (r0 r : Round1 P) (e : Option TssError)
    (hs : r0.started = false) (h : Start L r0 = some (r, e)) :
    r.params = r0.params ∧ r.newOK = setAll true r0.newOK ∧
    r.temp.dgRound1Messages.length = r0.temp.dgRound1Messages.length ∧
    r.oldOK = setAll r0.params.IsOldCommittee r0.oldOK := by
  have hsa : ∀ (b c : Bool) (l : List Bool), setAll b (setAll c l) = setAll b l := by
    intro b c l
    simp [setAll]
  unfold Start at h
  simp only [hs, Bool.false_eq_true, ↓reduceIte, hsa] at h
  split at h
  · rename_i hold
    simp only [Option.some.injEq, Prod.mk.injEq] at h
    obtain ⟨rfl, -⟩ := h
    have : r0.params.IsOldCommittee = false := by simpa using hold
    simp [this]
  · rename_i hold
    have hold' : r0.params.IsOldCommittee = true := by simpa using hold
    split at h
    · simp only [Option.some.injEq, Prod.mk.injEq] at h
      obtain ⟨rfl, -⟩ := h
      simp [hold']
    · split at h
      · exact absurd h (by simp)
      · split at h
        · simp only [Option.some.injEq, Prod.mk.injEq] at h
          obtain ⟨rfl, -⟩ := h
          simp [hold']
        · split at h
          · simp only [Option.some.injEq, Prod.mk.injEq] at h
            obtain ⟨rfl, -⟩ := h
            simp [hold']
          · split at h
            · exact absurd h (by simp)
            · split at h
              · simp only [Option.some.injEq, Prod.mk.injEq] at h
                obtain ⟨rfl, -⟩ := h
                simp [hold']
              · exact absurd h (by simp)

/-- The invariant of the reachable states of round 1. -/
theorem reachable_inv {P : Type} (L : Lib P) (r : Round1 P) (h : Reachable L r) :
    r.oldOK.length = r.params.OldParties.length ∧
    r.temp.dgRound1Messages.length = r.params.OldParties.length ∧
    (∀ b ∈ r.newOK, b = true) ∧
    (r.params.IsOldCommittee = true → ∀ b ∈ r.oldOK, b = true) ∧
    (r.params.IsOldCommittee = false →
      ∀ i, r.oldOK.get? i = some true → slotAcceptable r i) := by
  induction h with
  | start params input save temp r e hlen hstart =>
    obtain ⟨h1, h2, h3, h4⟩ := start_effect L _ r e rfl hstart
    simp only [newRound1] at h1 h2 h3 h4
    refine ⟨?_, ?_, ?_, ?_, ?_⟩
    · rw [h4, h1]; simp [setAll]
    · rw [h3, h1]; exact hlen
    · rw [h2]; simp [setAll]
    · intro hold
      rw [h4, ← h1, hold]
      simp [setAll]
    · intro hold i hi
      rw [h4, ← h1, hold] at hi
      rw [List.get?_eq_getElem?] at hi
      have := List.getElem?_eq_some_iff.mp hi
      obtain ⟨hlt, heq⟩ := this
      simp [setAll] at heq
  | update r r1 ready e _ hup ih =>
    obtain ⟨ih1, ih2, ih3, ih4, ih5⟩ := ih
    unfold Update at hup
    split at hup
    · simp only [Option.some.injEq, Prod.mk.injEq] at hup
      obtain ⟨rfl, -⟩ := hup
      exact ⟨ih1, ih2, ih3, ih4, ih5⟩
    · obtain ⟨f1, f2, f3, f4, f5, -⟩ := updateLoop_frame L _ _ _ _ _ hup
      refine ⟨?_, ?_, ?_, ?_, ?_⟩
      · rw [f1, f5]; exact ih1
      · rw [f4, f5]; exact ih2
      · rw [f3]; exact ih3
      · intro hold b hb
        rw [f5] at hold
        obtain ⟨i, hi⟩ := List.get?_of_mem hb
        have hlt : i < r.oldOK.length := by
          rw [List.get?_eq_getElem?] at hi
          have := (List.getElem?_eq_some_iff.mp hi).1
          omega
        have hri : r.oldOK.get? i = some true := by
          rw [List.get?_eq_getElem?, List.getElem?_eq_getElem hlt]
          congr 1
          exact ih4 hold _ (List.getElem_mem _)
        have := f2 i hri
        rw [hi] at this
        exact Option.some.inj this
      · intro hold i hi
        rw [f5] at hold
        have := updateLoop_accepted L _ _ _ _ _ hup (by simp) (ih5 hold) i hi
        obtain ⟨m, hm1, hm2⟩ := this
        exact ⟨m, by rw [f4]; exact hm1, hm2⟩
  | deliver r j m _ hslot ih =>
    obtain ⟨ih1, ih2, ih3, ih4, ih5⟩ := ih
    refine ⟨ih1, ?_, ih3, ih4, ?_⟩
    · simpa using ih2
    · intro hold i hi
      obtain ⟨m', hm1, hm2⟩ := ih5 hold i hi
      refine ⟨m', ?_, hm2⟩
      have hne : j ≠ i := by
        rintro rfl
        rw [hslot] at hm1
        simp at hm1
      show (r.temp.dgRound1Messages.set j (some m)).get? i = some (some m')
      rw [List.get?_eq_getElem?] at hm1 ⊢
      rwa [List.getElem?_set_ne hne]

/-- C1, the code at the failing input: old party 0 broadcasts the key 7 and old party 1
the key 9; `Update` on a new-committee party accepts both senders, returns ready with no
error and saves 7, because the key compared for sender 1 is read from slot 0. -/
theorem update_divergent_sender_accepted :
    observe (startThenUpdates intLib (newMemberRound divergentBuffer) 0)
      = some (true, none, [true, true], [true, true], some 7) := by
  decide

/-- C9, counterexample: old party 0's key does not decode and old party 1 has sent
nothing. The first `Update` returns an error naming party 0, with slot 0 already marked;
the second `Update`, with no new message, skips slot 0 and returns `(false, nil)`. -/
theorem update_not_idempotent_after_error :
    observe (startThenUpdates intLib (newMemberRound undecodableBuffer) 0)
      = some (false, some (WrapError [.unmarshalPubFailed] [⟨0, 1⟩]),
          [true, false], [true, true], none) ∧
    observe (startThenUpdates intLib (newMemberRound undecodableBuffer) 1)
      = some (false, none, [true, false], [true, true], none) ∧
    observe (startThenUpdates intLib (newMemberRound undecodableBuffer) 1)
      ≠ observe (startThenUpdates intLib (newMemberRound undecodableBuffer) 0) := by
  refine ⟨by decide, by decide, by decide⟩

/-- C9, amended: when `Update` returns without error, a second `Update` with no new
message returns the same `(ready, nil)` and leaves the whole round, `oldOK`, `newOK` and
the saved public key included, exactly as the first call left it. -/
theorem update_idempotent_without_error {P : Type} (L : Lib P) (r r1 : Round1 P)
    (ready : Bool) (h : Update L r = some (r1, ready, none)) :
    Update L r1 = some (r1, ready, none) := by
  unfold Update at h ⊢
  by_cases hnew : r.params.IsNewCommittee = true
  · simp only [hnew, Bool.not_true, Bool.false_eq_true, ↓reduceIte] at h
    obtain ⟨-, -, -, ht, hp, -⟩ := updateLoop_frame L _ _ _ _ _ h
    simp only [hp, hnew, Bool.not_true, Bool.false_eq_true, ↓reduceIte, ht]
    exact updateLoop_idem L _ _ _ _ _ h
  · simp only [hnew, Bool.not_false, ↓reduceIte, Option.some.injEq, Prod.mk.injEq] at h
    obtain ⟨rfl, rfl, -⟩ := h
    simp [hnew]

/-- C9, amended, at a concrete input: the new-committee party over the agreeing buffer. -/
theorem update_idempotent_without_error_witness :
    Update intLib startedRound = some (acceptedRound, true, none) ∧
    Update intLib acceptedRound = some (acceptedRound, true, none) :=
  ⟨by decide,
   update_idempotent_without_error intLib startedRound acceptedRound true (by decide)⟩

/-- C10, counterexample: a party that sits in both committees starts round 1 and calls
`Update` once; `Update` returns ready with no error although the slot of old party 1 in
the buffer is still empty. -/
theorem update_ready_with_empty_slot :
    dualMemberParams.IsNewCommittee = true ∧
    observe (startThenUpdates intLib dualMemberRound 0)
      = some (true, none, [true, true], [true, true], none) ∧
    (startThenUpdates intLib dualMemberRound 0).map
        (fun x => x.1.temp.dgRound1Messages.get? 1) = some (some none) := by
  refine ⟨by decide, by decide, by decide⟩

/-- C10, amended: in a state reached by `Start` and `Update` calls, for a party that
belongs to at least one committee, whenever `Update` returns ready with no error every
slot of `oldOK` and of `newOK` is true; and for a party of the new committee that is not
in the old one, the slot of every old-committee sender then holds a present, acceptable
broadcast. -/
theorem update_ready_all_ok {P : Type} (L : Lib P) (r r1 : Round1 P)
    (hreach : Reachable L r)
    (hmem : r.params.IsOldCommittee = true ∨ r.params.IsNewCommittee = true)
    (hup : Update L r = some (r1, true, none)) :
    (∀ b ∈ r1.oldOK, b = true) ∧ (∀ b ∈ r1.newOK, b = true) ∧
    (r1.params.IsNewCommittee = true → r1.params.IsOldCommittee = false →
      ∀ j, j < r1.params.OldParties.length → slotAcceptable r1 j) := by
  obtain ⟨i1, i2, i3, i4, i5⟩ := reachable_inv L r1 (Reachable.update r r1 true none hreach hup)
  have hp : r1.params = r.params ∧ r1.temp = r.temp := by
    unfold Update at hup
    split at hup
    · simp only [Option.some.injEq, Prod.mk.injEq] at hup
      obtain ⟨rfl, -⟩ := hup
      exact ⟨rfl, rfl⟩
    · obtain ⟨-, -, -, f4, f5, -⟩ := updateLoop_frame L _ _ _ _ _ hup
      exact ⟨f5, f4⟩
  have hall : r1.params.IsOldCommittee = false → ∀ j, j < r1.params.OldParties.length →
      r1.oldOK.get? j = some true := by
    intro hold j hj
    have hnew : r.params.IsNewCommittee = true := by
      rcases hmem with h | h
      · rw [hp.1] at hold
        rw [hold] at h
        exact absurd h (by simp)
      · exact h
    unfold Update at hup
    simp only [hnew, Bool.not_true, Bool.false_eq_true, ↓reduceIte] at hup
    refine updateLoop_ready L _ _ _ _ _ hup j (Nat.zero_le _) ?_
    rw [← hp.2, i2]
    simpa using hj
  refine ⟨?_, i3, ?_⟩
  · cases hold : r1.params.IsOldCommittee with
    | true => exact i4 hold
    | false =>
      intro b hb
      obtain ⟨j, hj⟩ := List.get?_of_mem hb
      have hlt : j < r1.params.OldParties.length := by
        rw [List.get?_eq_getElem?] at hj
        have := (List.getElem?_eq_some_iff.mp hj).1
        omega
      have := hall hold j hlt
      rw [hj] at this
      exact Option.some.inj this
  · intro _ hold j hj
    exact i5 hold j (hall hold j hj)

/-- C10, amended, at a concrete input: the new-committee party over the agreeing
buffer. -/
theorem update_ready_all_ok_witness :
    (∀ b ∈ acceptedRound.oldOK, b = true) ∧ (∀ b ∈ acceptedRound.newOK, b = true) ∧
    (acceptedRound.params.IsNewCommittee = true →
      acceptedRound.params.IsOldCommittee = false →
      ∀ j, j < acceptedRound.params.OldParties.length → slotAcceptable acceptedRound j) :=
  update_ready_all_ok intLib startedRound acceptedRound
    (Reachable.start newMemberParams emptySave emptySave
      { VD := [], NewShares := [], dgRound1Messages := agreeingBuffer } startedRound none
      rfl (by decide))
    (Or.inr rfl) (by decide)

/-- C15: `CanAccept` is a predicate of the message alone; it is true exactly when the
content is a `DGRound1Message` and the message is a broadcast, false for every other
content and false for every point-to-point message. -/
theorem canAccept_iff (msg : ParsedMessage Content) :
    (CanAccept msg = true ↔ (∃ m, msg.Content = .dgRound1 m) ∧ msg.IsBroadcast = true) ∧
    (∀ tag, msg.Content = .other tag → CanAccept msg = false) ∧
    (msg.IsBroadcast = false → CanAccept msg = false) := by
  unfold CanAccept
  cases hc : msg.Content with
  | dgRound1 m => simp
  | other tag => simp

/-- Below `2^63` the Go `int` sum is the mathematical sum. -/
theorem intAdd_of_lt (a b : Nat) (h : a + b < 9223372036854775808) :
    intAdd a b = ((a + b : Nat) : Int) := by
  have hmod : (a + b) % 18446744073709551616 = a + b := Nat.mod_eq_of_lt (by omega)
  unfold intAdd
  rw [hmod, if_pos h]

/-- C20, counterexample: an old-committee party with threshold 1 and a single key in its
save data; `Start` returns the error with the party itself in the culprit list. And with
two keys and the threshold at the largest Go `int`, `threshold + 1` wraps around to a
negative number, the guard of line 46 does not fire, and `Start` returns no error after
sharing for the two new parties and emitting its broadcast. -/
theorem start_short_keys_names_self :
    (Start intLib shortKeysRound).map (fun x => x.2.map (fun e => e.culprits))
      = some (some [⟨0, 1⟩]) ∧
    maxThresholdRound.params.Threshold + 1 > maxThresholdRound.input.Ks.length ∧
    (Start vssLib maxThresholdRound).map
      (fun x => (x.2.isNone, x.1.out.length, x.1.temp.NewShares.length))
      = some (true, 1, 2) := by
  refine ⟨by decide, by decide, by decide⟩

/-- C20, amended: on an old-committee party whose round was not started and whose
threshold is below the largest Go `int` (so that `threshold + 1` does not wrap around), if
`threshold + 1` exceeds the number of keys in the input save data, `Start` returns an
error whose culprit list is exactly the party itself; the round it leaves is the input
round with the flags and bitsets set and nothing else: no outbound message, temp data
(decommitment, new shares, message buffer) unchanged, and the result does not depend on
the library, so no sharing was run. -/
theorem start_insufficient_keys {P : Type} (L : Lib P) (round : Round1 P)
    (hs : round.started = false) (hold : round.params.IsOldCommittee = true)
    (hno : round.params.Threshold + 1 < 9223372036854775808)
    (hk : round.params.Threshold + 1 > round.input.Ks.length) :
    Start L round
      = some ({ round with
                  number := 1, started := true,
                  oldOK := setAll true round.oldOK,
                  newOK := setAll true round.newOK },
              some (WrapError [.insufficientKeys] [round.params.PartyID])) ∧
    ∀ r1 e, Start L round = some (r1, e) →
      e = some (WrapError [.insufficientKeys] [round.params.PartyID]) ∧
      r1.out = round.out ∧ r1.temp = round.temp ∧ r1.input = round.input ∧
      r1.save = round.save ∧ r1.endCh = round.endCh := by
  have hsa : ∀ (b c : Bool) (l : List Bool), setAll b (setAll c l) = setAll b l := by
    intro b c l
    simp [setAll]
  have hguard : intAdd round.params.Threshold 1 > (round.input.Ks.length : Int) := by
    rw [intAdd_of_lt _ _ hno]
    exact_mod_cast hk
  have h : Start L round
      = some ({ round with
                  number := 1, started := true,
                  oldOK := setAll true round.oldOK,
                  newOK := setAll true round.newOK },
              some (WrapError [.insufficientKeys] [round.params.PartyID])) := by
    unfold Start
    simp [hs, hold, hguard, hsa]
  refine ⟨h, ?_⟩
  intro r1 e h1
  rw [h] at h1
  simp only [Option.some.injEq, Prod.mk.injEq] at h1
  obtain ⟨rfl, rfl⟩ := h1
  simp

/-- C20, amended, at a concrete input: the old-committee party with a single key. -/
theorem start_insufficient_keys_witness :
    Start intLib shortKeysRound
      = some ({ shortKeysRound with
                  number := 1, started := true,
                  oldOK := setAll true shortKeysRound.oldOK,
                  newOK := setAll true shortKeysRound.newOK },
              some (WrapError [.insufficientKeys] [shortKeysRound.params.PartyID])) ∧
    ∀ r1 e, Start intLib shortKeysRound = some (r1, e) →
      e = some (WrapError [.insufficientKeys] [shortKeysRound.params.PartyID]) ∧
      r1.out = shortKeysRound.out ∧ r1.temp = shortKeysRound.temp ∧
      r1.input = shortKeysRound.input ∧
      r1.save = shortKeysRound.save ∧ r1.endCh = shortKeysRound.endCh :=
  start_insufficient_keys intLib shortKeysRound rfl rfl (by decide) (by decide)

/-- C13: when `Start` succeeds on an old-committee party, it ran `PrepareForSigning` for
`w_i`, `Create` with the new threshold, `w_i` and the keys of the new committee, and
`FlattenECPoints`; it emitted exactly one message, a broadcast from this party to the new
committee without itself that carries the coordinates of the input public key and the
hash commitment `C` of the flattened vector; the same message sits in the party's own
slot of the round-1 buffer, the decommitment `D` and the new shares are in the temp data,
and the input save data, the save record and the terminal channel are untouched. -/
theorem start_broadcasts_commitment {P : Type} (L : Lib P) (round r1 : Round1 P)
    (hs : round.started = false) (hold : round.params.IsOldCommittee = true)
    (h : Start L round = some (r1, none)) :
    ∃ wi vi shares flatVis pub,
      L.PrepareForSigning round.params.PartyID.Index round.params.OldParties.length
        round.input.Xi round.input.Ks = some wi ∧
      L.Create round.params.NewThreshold wi (round.params.NewParties.map (fun p => p.Key))
        = .ok (vi, shares) ∧
      L.FlattenECPoints vi = .ok flatVis ∧
      round.input.EDDSAPub = some pub ∧
      round.params.PartyID.Index < round.temp.dgRound1Messages.length ∧
      r1.out = round.out ++
        [{ From := round.params.PartyID,
           To := L.Exclude round.params.NewParties round.params.PartyID,
           IsBroadcast := true,
           Content := .dgRound1 ⟨L.X pub, L.Y pub, (L.NewHashCommitment flatVis).1⟩ }] ∧
      r1.temp.dgRound1Messages = round.temp.dgRound1Messages.set round.params.PartyID.Index
        (some { From := round.params.PartyID,
                To := L.Exclude round.params.NewParties round.params.PartyID,
                IsBroadcast := true,
                Content := .dgRound1 ⟨L.X pub, L.Y pub, (L.NewHashCommitment flatVis).1⟩ }) ∧
      r1.temp.VD = (L.NewHashCommitment flatVis).2 ∧ r1.temp.NewShares = shares ∧
      r1.input = round.input ∧ r1.save = round.save ∧ r1.endCh = round.endCh := by
  unfold Start at h
  simp only [hs, hold, Bool.false_eq_true, ↓reduceIte, Bool.not_true] at h
  split at h
  · simp at h
  · split at h
    · exact absurd h (by simp)
    · rename_i wi hwi
      split at h
      · simp at h
      · rename_i vi shares hcreate
        split at h
        · simp at h
        · rename_i flatVis hflat
          split at h
          · exact absurd h (by simp)
          · rename_i pub hpub
            split at h
            · rename_i hidx
              simp only [Option.some.injEq, Prod.mk.injEq, and_true] at h
              subst h
              exact ⟨wi, vi, shares, flatVis, pub, hwi, hcreate, hflat, hpub, hidx,
                rfl, rfl, rfl, rfl, rfl, rfl, rfl⟩
            · exact absurd h (by simp)

/-- C13 at a concrete input: the first old-committee party sharing its prepared share 3
towards the new committee. -/
theorem start_broadcasts_commitment_witness :
    ∃ wi vi shares flatVis pub,
      vssLib.PrepareForSigning oldMemberRound.params.PartyID.Index
        oldMemberRound.params.OldParties.length
        oldMemberRound.input.Xi oldMemberRound.input.Ks = some wi ∧
      vssLib.Create oldMemberRound.params.NewThreshold wi
        (oldMemberRound.params.NewParties.map (fun p => p.Key)) = .ok (vi, shares) ∧
      vssLib.FlattenECPoints vi = .ok flatVis ∧
      oldMemberRound.input.EDDSAPub = some pub ∧
      oldMemberRound.params.PartyID.Index < oldMemberRound.temp.dgRound1Messages.length ∧
      oldMemberStarted.out = oldMemberRound.out ++
        [{ From := oldMemberRound.params.PartyID,
           To := vssLib.Exclude oldMemberRound.params.NewParties
             oldMemberRound.params.PartyID,
           IsBroadcast := true,
           Content := .dgRound1
             ⟨vssLib.X pub, vssLib.Y pub, (vssLib.NewHashCommitment flatVis).1⟩ }] ∧
      oldMemberStarted.temp.dgRound1Messages
        = oldMemberRound.temp.dgRound1Messages.set oldMemberRound.params.PartyID.Index
        (some { From := oldMemberRound.params.PartyID,
                To := vssLib.Exclude oldMemberRound.params.NewParties
                  oldMemberRound.params.PartyID,
                IsBroadcast := true,
                Content := .dgRound1
                  ⟨vssLib.X pub, vssLib.Y pub, (vssLib.NewHashCommitment flatVis).1⟩ }) ∧
      oldMemberStarted.temp.VD = (vssLib.NewHashCommitment flatVis).2 ∧
      oldMemberStarted.temp.NewShares = shares ∧
      oldMemberStarted.input = oldMemberRound.input ∧
      oldMemberStarted.save = oldMemberRound.save ∧
      oldMemberStarted.endCh = oldMemberRound.endCh :=
  start_broadcasts_commitment vssLib oldMemberRound oldMemberStarted rfl rfl (by decide)

/-- C17, the code at the failing input: a new-committee party whose slot 0 holds a key
that does not decode. The first `Update` marks sender 0 and fails; old party 1's broadcast
is then delivered and `Update` is called again: sender 0 is skipped, yet the key examined
for sender 1 is read from slot 0 again, and the call fails naming sender 1. -/
theorem update_reexamines_marked_sender :
    observe (startThenUpdates intLib (newMemberRound undecodableBuffer) 0)
      = some (false, some (WrapError [.unmarshalPubFailed] [⟨0, 1⟩]),
          [true, false], [true, true], none) ∧
    observe ((startThenUpdates intLib (newMemberRound undecodableBuffer) 0).bind
        (fun s => Update intLib (deliver s.1 1 (bcast ⟨1, 2⟩ 7 0))))
      = some (false, some (WrapError [.unmarshalPubFailed] [⟨1, 2⟩]),
          [true, true], [true, true], none) := by
  refine ⟨by decide, by decide⟩

/-- An `Update` keeps every slot of `oldOK` that was true, keeps `newOK`, and keeps the
started flag. -/
theorem update_keeps_true_slots {P : Type} (L : Lib P) (r r1 : Round1 P)
    (res : Bool × Option TssError) (h : Update L r = some (r1, res)) :
    (∀ i, r.oldOK.get? i = some true → r1.oldOK.get? i = some true) ∧
    r1.newOK = r.newOK ∧ r1.started = r.started := by
  unfold Update at h
  split at h
  · simp only [Option.some.injEq, Prod.mk.injEq] at h
    obtain ⟨rfl, -⟩ := h
    exact ⟨fun _ hi => hi, rfl, rfl⟩
  · obtain ⟨-, f2, f3, -, -, -, -, -, f9, -⟩ := updateLoop_frame L _ _ _ _ _ h
    exact ⟨f2, f3, f9⟩

end Resharing

/-! ## Theorems: keygen round 3 -/

namespace Keygen

/-- The share loop adds the share of every party but ourselves. -/
theorem sumShares_eq {P : Type} (temp : LocalTempData P) (PIdx : Nat) (s : Nat → Nat) :
    ∀ (ps : List PartyID) (j : Nat) (xi : Int),
      (∀ i, j ≤ i → i < j + ps.length → i ≠ PIdx → r2msg1Share temp i = some (s i)) →
      sumShares temp PIdx j ps xi
        = some (xi + ∑ i in Finset.Ico j (j + ps.length),
                  if i = PIdx then 0 else (s i : Int)) := by
  intro ps
  induction ps with
  | nil =>
    intro j xi _
    simp [sumShares]
  | cons p rest ih =>
    intro j xi h
    have hlt : j < j + (p :: rest).length := by simp
    have hrest : ∀ i, j + 1 ≤ i → i < j + 1 + rest.length → i ≠ PIdx →
        r2msg1Share temp i = some (s i) := by
      intro i h1 h2 h3
      exact h i (by omega) (by simp only [List.length_cons]; omega) h3
    rw [Finset.sum_eq_sum_Ico_succ_bot hlt]
    have hlen : j + (p :: rest).length = j + 1 + rest.length := by
      simp only [List.length_cons]; omega
    rw [hlen]
    by_cases hj : j = PIdx
    · subst hj
      simp only [sumShares, ↓reduceIte]
      rw [ih (j + 1) xi hrest]
      simp
    · have hs := h j (le_refl _) hlt hj
      simp only [sumShares, hj, ↓reduceIte, hs]
      rw [ih (j + 1) _ hrest]
      congr 1
      ring

/-- The share loop returns only when every peer's share could be read. -/
theorem sumShares_some {P : Type} (temp : LocalTempData P) (PIdx : Nat) :
    ∀ (ps : List PartyID) (j : Nat) (xi v : Int),
      sumShares temp PIdx j ps xi = some v →
      ∀ i, j ≤ i → i < j + ps.length → i ≠ PIdx → (r2msg1Share temp i).isSome = true := by
  intro ps
  induction ps with
  | nil =>
    intro j xi v _ i h1 h2
    simp at h2
    omega
  | cons p rest ih =>
    intro j xi v h i h1 h2 h3
    simp only [List.length_cons] at h2
    simp only [sumShares] at h
    split at h
    · rename_i hj
      have : j ≠ i := by rintro rfl; exact h3 hj
      exact ih _ _ _ h i (by omega) (by omega) h3
    · split at h
      · exact absurd h (by simp)
      · rename_i sh hsh
        rcases Nat.eq_or_lt_of_le h1 with rfl | hlt
        · simp [hsh]
        · exact ih _ _ _ h i hlt (by omega) h3


/-- Every way `Start` can return on a round that was not started, phase by phase. -/
theorem start_cases {P Pf : Type} (L : Lib P Pf) (round r1 : Round3 P)
    (e : Option TssError) (hs : round.started = false)
    (h : Start L round = some (r1, e)) :
    ∃ xi Vc0 results,
      calcXi L.N round.temp round.PartyID.Index round.Parties = some xi ∧
      initVc round.temp round.Threshold = some Vc0 ∧
      runPeers L round.temp round.PartyID round.Threshold 0 round.Parties = some results ∧
      ((0 < (vssCulprits round.PartyID.Index 0 round.Parties results).length ∧
          r1 = afterXi round xi ∧
          e = some (WrapError (results.filterMap (fun res => res.unWrappedErr))
                (vssCulprits round.PartyID.Index 0 round.Parties results))) ∨
       (¬ 0 < (vssCulprits round.PartyID.Index 0 round.Parties results).length ∧
        ∃ Vc cul,
          aggregateVc L round.PartyID.Index round.Threshold 0 round.Parties results (Vc0, [])
            = some (Vc, cul) ∧
          ((0 < cul.length ∧ r1 = afterXi round xi ∧
              e = some (WrapError [.addPjVsOffCurve] cul)) ∨
           (¬ 0 < cul.length ∧
            ∃ bigXj cul2,
              computeBigXj L round.Parties Vc round.Threshold 0 round.PartyCount
                (round.save.BigXj, []) = some (bigXj, cul2) ∧
              ((0 < cul2.length ∧ r1 = afterBigXj round xi bigXj ∧
                  e = some (WrapError [.addBigXjOffCurve] cul2)) ∨
               (¬ 0 < cul2.length ∧
                ∃ Vc0', Vc.get? 0 = some Vc0' ∧
                  ((L.NewECPoint (L.X Vc0') (L.Y Vc0') = none ∧
                      r1 = afterBigXj round xi bigXj ∧
                      e = some (WrapError [.pubKeyOffCurve] [])) ∨
                   (∃ pub, L.NewECPoint (L.X Vc0') (L.Y Vc0') = some pub ∧
                      r1 = afterSave round xi bigXj pub ∧ e = none)))))))) := by
  unfold Start at h
  simp only [hs, Bool.false_eq_true, ↓reduceIte] at h
  split at h
  · exact absurd h (by simp)
  · rename_i xi hxi
    split at h
    · exact absurd h (by simp)
    · rename_i Vc0 hVc0
      split at h
      · exact absurd h (by simp)
      · rename_i results hres
        refine ⟨xi, Vc0, results, hxi, hVc0, hres, ?_⟩
        split at h
        · rename_i hc
          simp only [Option.some.injEq, Prod.mk.injEq] at h
          exact Or.inl ⟨hc, h.1.symm, h.2.symm⟩
        · rename_i hc
          refine Or.inr ⟨hc, ?_⟩
          split at h
          · exact absurd h (by simp)
          · rename_i Vc cul hagg
            refine ⟨Vc, cul, hagg, ?_⟩
            split at h
            · rename_i hc1
              simp only [Option.some.injEq, Prod.mk.injEq] at h
              exact Or.inl ⟨hc1, h.1.symm, h.2.symm⟩
            · rename_i hc1
              refine Or.inr ⟨hc1, ?_⟩
              split at h
              · exact absurd h (by simp)
              · rename_i bigXj cul2 hbig
                refine ⟨bigXj, cul2, hbig, ?_⟩
                split at h
                · rename_i hc2
                  simp only [Option.some.injEq, Prod.mk.injEq] at h
                  exact Or.inl ⟨hc2, h.1.symm, h.2.symm⟩
                · rename_i hc2
                  refine Or.inr ⟨hc2, ?_⟩
                  split at h
                  · exact absurd h (by simp)
                  · rename_i Vc0' hv0
                    refine ⟨Vc0', hv0, ?_⟩
                    split at h
                    · rename_i hnew
                      simp only [Option.some.injEq, Prod.mk.injEq] at h
                      exact Or.inl ⟨hnew, h.1.symm, h.2.symm⟩
                    · rename_i pub hnew
                      simp only [Option.some.injEq, Prod.mk.injEq] at h
                      exact Or.inr ⟨pub, hnew, h.1.symm, h.2.symm⟩


/-- When no goroutine panics, the verification sweep fills `vssResults` slot by slot. -/
theorem runPeers_of_some {P Pf : Type} (L : Lib P Pf) (temp : LocalTempData P)
    (self : PartyID) (t : Nat) :
    ∀ (ps : List PartyID) (j : Nat),
      (∀ i, j ≤ i → i < j + ps.length → i ≠ self.Index →
        (verifyPeer L temp self t i).isSome = true) →
      runPeers L temp self t j ps
        = some ((List.range' j ps.length).map (peerOut L temp self t)) := by
  intro ps
  induction ps with
  | nil =>
    intro j _
    simp [runPeers]
  | cons p rest ih =>
    intro j h
    have hrest : ∀ i, j + 1 ≤ i → i < j + 1 + rest.length → i ≠ self.Index →
        (verifyPeer L temp self t i).isSome = true := by
      intro i h1 h2 h3
      exact h i (by omega) (by simp only [List.length_cons]; omega) h3
    simp only [List.length_cons, List.range'_succ, List.map_cons]
    by_cases hj : j = self.Index
    · simp only [runPeers, hj, ↓reduceIte]
      rw [← hj, ih (j + 1) hrest]
      simp [peerOut, hj]
    · have hv := h j (le_refl _) (by simp) hj
      obtain ⟨res, hres⟩ := Option.isSome_iff_exists.mp hv
      simp only [runPeers, hj, ↓reduceIte, hres]
      rw [ih (j + 1) hrest]
      simp [peerOut, hj, hres]

/-- The verification sweep returns only when no goroutine panicked. -/
theorem runPeers_some {P Pf : Type} (L : Lib P Pf) (temp : LocalTempData P)
    (self : PartyID) (t : Nat) :
    ∀ (ps : List PartyID) (j : Nat) (res : List (VssOut P)),
      runPeers L temp self t j ps = some res →
      ∀ i, j ≤ i → i < j + ps.length → i ≠ self.Index →
        (verifyPeer L temp self t i).isSome = true := by
  intro ps
  induction ps with
  | nil =>
    intro j res _ i h1 h2
    simp at h2
    omega
  | cons p rest ih =>
    intro j res h i h1 h2 h3
    simp only [List.length_cons] at h2
    simp only [runPeers] at h
    split at h
    · rename_i hj
      have : j ≠ i := by rintro rfl; exact h3 hj
      obtain ⟨tl, htl, -⟩ := Option.map_eq_some'.mp h
      exact ih _ _ htl i (by omega) (by omega) h3
    · split at h
      · exact absurd h (by simp)
      · rename_i r hr
        obtain ⟨tl, htl, -⟩ := Option.map_eq_some'.mp h
        rcases Nat.eq_or_lt_of_le h1 with rfl | hlt
        · simp [hr]
        · exact ih _ _ htl i hlt (by omega) h3

/-- The culprits of the verification sweep are the parties, in committee order, at an
index other than ours whose slot holds an error. -/
theorem vssCulprits_eq {P : Type} (PIdx : Nat) (out : Nat → VssOut P) :
    ∀ (ps : List PartyID) (j : Nat),
      vssCulprits PIdx j ps ((List.range' j ps.length).map out)
        = ((ps.enumFrom j).filter
            (fun p => decide (p.1 ≠ PIdx) && (out p.1).unWrappedErr.isSome)).map Prod.snd := by
  intro ps
  induction ps with
  | nil =>
    intro j
    simp [vssCulprits]
  | cons p rest ih =>
    intro j
    simp only [List.length_cons, List.range'_succ, List.map_cons, vssCulprits,
      List.enumFrom_cons]
    by_cases hj : j = PIdx
    · have := ih (j + 1)
      simp [hj, List.filter_cons]
      simpa [hj] using this
    · have := ih (j + 1)
      by_cases he : (out j).unWrappedErr.isSome = true
      · simp [hj, he, List.filter_cons]
        simpa using this
      · simp [hj, he, List.filter_cons]
        simpa using this


/-- The share phase on a well-formed round: our own share plus the shares of the peers,
modulo the group order. -/
theorem calcXi_eq {P : Type} (N : Nat) (temp : LocalTempData P) (PIdx : Nat)
    (Ps : List PartyID) (own : Share) (s : Nat → Nat) (hN : 0 < N)
    (hown : temp.shares.get? PIdx = some own)
    (hpeer : ∀ j, j < Ps.length → j ≠ PIdx → r2msg1Share temp j = some (s j)) :
    calcXi N temp PIdx Ps
      = some ((own.Share + ∑ j in (Finset.range Ps.length).filter (fun j => j ≠ PIdx),
          (s j : Int)) % (N : Int)) := by
  have hNz : N ≠ 0 := Nat.pos_iff_ne_zero.mp hN
  have hsum := sumShares_eq temp PIdx s Ps 0 own.Share
    (by intro i _ h2 h3; exact hpeer i (by simpa using h2) h3)
  unfold calcXi
  simp only [hown, hsum, hNz, ↓reduceIte, Nat.zero_add]
  rw [Finset.sum_filter, Finset.range_eq_Ico]
  congr 3
  apply Finset.sum_congr rfl
  intro i _
  by_cases hi : i = PIdx <;> simp [hi]

/-- C7: on a round that was not started and whose share, commitment and verification
phases do not panic, if the verification of at least one peer fails then `Start` returns
one error whose culprit list is the committee list restricted to the indices other than
ours whose verification failed: exactly those peers, once each, in ascending index. -/
theorem start_reports_failed_peers {P Pf : Type} (L : Lib P Pf) (round : Round3 P)
    (hs : round.started = false)
    (hxi : (calcXi L.N round.temp round.PartyID.Index round.Parties).isSome = true)
    (hvc : (initVc round.temp round.Threshold).isSome = true)
    (hrun : ∀ j, j < round.Parties.length → j ≠ round.PartyID.Index →
      (verifyPeer L round.temp round.PartyID round.Threshold j).isSome = true)
    (hfail : ∃ j, j < round.Parties.length ∧ j ≠ round.PartyID.Index ∧
      peerFailed L round.temp round.PartyID round.Threshold j = true) :
    ∃ r1 e, Start L round = some (r1, some e) ∧
      e.culprits = (round.Parties.enum.filter
        (fun p => decide (p.1 ≠ round.PartyID.Index) &&
          peerFailed L round.temp round.PartyID round.Threshold p.1)).map Prod.snd := by
  obtain ⟨xi, hxi'⟩ := Option.isSome_iff_exists.mp hxi
  obtain ⟨Vc0, hvc'⟩ := Option.isSome_iff_exists.mp hvc
  have hrun' := runPeers_of_some L round.temp round.PartyID round.Threshold round.Parties 0
    (by intro i _ h2 h3; exact hrun i (by simpa using h2) h3)
  have hcul := vssCulprits_eq round.PartyID.Index
    (peerOut L round.temp round.PartyID round.Threshold) round.Parties 0
  have hpos : 0 < (vssCulprits round.PartyID.Index 0 round.Parties
      ((List.range' 0 round.Parties.length).map
        (peerOut L round.temp round.PartyID round.Threshold))).length := by
    rw [hcul]
    obtain ⟨j, hj1, hj2, hj3⟩ := hfail
    apply List.length_pos_of_mem (a := round.Parties.get ⟨j, hj1⟩)
    apply List.mem_map.mpr
    refine ⟨(j, round.Parties.get ⟨j, hj1⟩), ?_, rfl⟩
    apply List.mem_filter.mpr
    constructor
    · show (j, round.Parties.get ⟨j, hj1⟩) ∈ round.Parties.enum
      rw [List.mk_mem_enum_iff_getElem?]
      simp [List.getElem?_eq_getElem hj1]
    · simp only [peerFailed] at hj3
      simp [hj2, hj3]
  refine ⟨afterXi round xi,
    WrapError
      (((List.range' 0 round.Parties.length).map
        (peerOut L round.temp round.PartyID round.Threshold)).filterMap
          (fun res => res.unWrappedErr))
      (vssCulprits round.PartyID.Index 0 round.Parties
        ((List.range' 0 round.Parties.length).map
          (peerOut L round.temp round.PartyID round.Threshold))), ?_, ?_⟩
  · unfold Start
    simp only [hs, Bool.false_eq_true, ↓reduceIte, hxi', hvc', hrun', hpos, gt_iff_lt]
    rfl
  · simp only [WrapError, hcul, peerFailed]
    rfl

/-- C7 at a concrete input: party 0 of the three-party ceremony when both peers send a
share that is off by one; both are reported, in index order. -/
theorem start_reports_failed_peers_witness :
    ∃ r1 e, Start modLib (demoRoundWith (fun _ => 1) 0) = some (r1, some e) ∧
      e.culprits = ((demoRoundWith (fun _ => 1) 0).Parties.enum.filter
        (fun p => decide (p.1 ≠ (demoRoundWith (fun _ => 1) 0).PartyID.Index) &&
          peerFailed modLib (demoRoundWith (fun _ => 1) 0).temp
            (demoRoundWith (fun _ => 1) 0).PartyID
            (demoRoundWith (fun _ => 1) 0).Threshold p.1)).map Prod.snd :=
  start_reports_failed_peers modLib (demoRoundWith (fun _ => 1) 0) rfl (by decide)
    (by decide) (by decide) ⟨1, by decide, by decide, by decide⟩


/-- A culprit list that is empty after a conditional append was empty before it, and
nothing was appended. -/
theorem append_if_eq_nil {α : Type} (err : Bool) (cul : List α) (x : α)
    (h : (if err = true then cul ++ [x] else cul) = []) : err = false ∧ cul = [] := by
  cases err with
  | true => simp at h
  | false => exact ⟨rfl, by simpa using h⟩

/-- The inner loop of the commitment sweep, when it reports no culprit: every addition
succeeded and each slot in the range it covers received the peer's point. -/
theorem addPjVs_ok {P Pf : Type} [AddCommMonoid P] (L : Lib P Pf)
    (hAdd : ∀ a b s, L.Add a b = (s, false) → s = a + b) (Pj : PartyID) (PjVs : List P) :
    ∀ (k c : Nat) (Vc : List P) (cul : List PartyID) (Vc1 : List P),
      addPjVs L Pj PjVs c k (Vc, cul) = some (Vc1, []) →
      cul = [] ∧ Vc1.length = Vc.length ∧
      ∀ i, Vc1.getD i 0
        = if c ≤ i ∧ i < c + k then Vc.getD i 0 + PjVs.getD i 0 else Vc.getD i 0 := by
  intro k
  induction k with
  | zero =>
    intro c Vc cul Vc1 h
    simp only [addPjVs, Option.some.injEq, Prod.mk.injEq] at h
    obtain ⟨rfl, rfl⟩ := h
    refine ⟨rfl, rfl, fun i => ?_⟩
    have : ¬ (c ≤ i ∧ i < c + 0) := by omega
    rw [if_neg this]
  | succ k ih =>
    intro c Vc cul Vc1 h
    simp only [addPjVs] at h
    split at h
    · rename_i Vcc PjVc hVcc hPjVc
      rcases hadd : L.Add Vcc PjVc with ⟨sum, err⟩
      simp only [hadd] at h
      obtain ⟨h1, h2, h3⟩ := ih _ _ _ _ h
      obtain ⟨herr, hcul⟩ := append_if_eq_nil err cul Pj h1
      subst herr
      have hsum := hAdd _ _ _ hadd
      rw [List.get?_eq_getElem?] at hVcc hPjVc
      have hc : c < Vc.length := (List.getElem?_eq_some_iff.mp hVcc).1
      refine ⟨hcul, by simpa using h2, fun i => ?_⟩
      rw [h3 i]
      by_cases hic : i = c
      · subst hic
        have h1' : ¬ (i + 1 ≤ i ∧ i < i + 1 + k) := by omega
        have h2' : i ≤ i ∧ i < i + (k + 1) := by omega
        rw [if_neg h1', if_pos h2']
        simp [List.getD_eq_getElem?_getD, hc, hsum, hVcc, hPjVc]
      · have hset : (Vc.set c sum).getD i 0 = Vc.getD i 0 := by
          simp [List.getD_eq_getElem?_getD, List.getElem?_set_ne (Ne.symm hic)]
        rw [hset]
        by_cases hr : c + 1 ≤ i ∧ i < c + 1 + k
        · have : c ≤ i ∧ i < c + (k + 1) := by omega
          rw [if_pos hr, if_pos this]
        · have : ¬ (c ≤ i ∧ i < c + (k + 1)) := by omega
          rw [if_neg hr, if_neg this]
    · exact absurd h (by simp)


/-- The commitment sweep, when it reports no culprit: every slot `c ≤ t` of `Vc` received
the point `c` of every peer's vector. -/
theorem aggregateVc_ok {P Pf : Type} [AddCommMonoid P] (L : Lib P Pf)
    (hAdd : ∀ a b s, L.Add a b = (s, false) → s = a + b) (PIdx t : Nat)
    (out : Nat → VssOut P) :
    ∀ (ps : List PartyID) (j : Nat) (Vc : List P) (cul : List PartyID) (Vc1 : List P),
      aggregateVc L PIdx t j ps ((List.range' j ps.length).map out) (Vc, cul)
        = some (Vc1, []) →
      cul = [] ∧ Vc1.length = Vc.length ∧
      ∀ c, c ≤ t → Vc1.getD c 0
        = Vc.getD c 0 + ∑ i in Finset.Ico j (j + ps.length),
            if i = PIdx then 0 else ((out i).pjVs.getD []).getD c 0 := by
  intro ps
  induction ps with
  | nil =>
    intro j Vc cul Vc1 h
    simp only [List.length_nil, List.range'_zero, List.map_nil, aggregateVc,
      Option.some.injEq, Prod.mk.injEq] at h
    obtain ⟨rfl, rfl⟩ := h
    simp
  | cons p rest ih =>
    intro j Vc cul Vc1 h
    have hlt : j < j + (p :: rest).length := by simp
    have hlen : j + (p :: rest).length = j + 1 + rest.length := by
      simp only [List.length_cons]; omega
    simp only [List.length_cons, List.range'_succ, List.map_cons, aggregateVc] at h
    split at h
    · rename_i hj
      obtain ⟨h1, h2, h3⟩ := ih _ _ _ _ h
      refine ⟨h1, h2, fun c hc => ?_⟩
      rw [h3 c hc, Finset.sum_eq_sum_Ico_succ_bot hlt, hlen]
      simp [hj]
    · rename_i hj
      split at h
      · exact absurd h (by simp)
      · rename_i PjVs hPjVs
        split at h
        · exact absurd h (by simp)
        · rename_i acc hacc
          obtain ⟨Vc2, cul2⟩ := acc
          obtain ⟨h1, h2, h3⟩ := ih _ _ _ _ h
          subst h1
          obtain ⟨g1, g2, g3⟩ := addPjVs_ok L hAdd p PjVs _ _ _ _ _ hacc
          refine ⟨g1, by rw [h2, g2], fun c hc => ?_⟩
          have hin : 0 ≤ c ∧ c < 0 + (t + 1) := by omega
          rw [h3 c hc, g3 c, if_pos hin, Finset.sum_eq_sum_Ico_succ_bot hlt, hlen, if_neg hj,
            hPjVs]
          simp [add_assoc]

/-- The evaluation loop for one party, when it reports no culprit: the multiplier at
step `c` is the `c`-th power of the key modulo the group order, and the running point
received the multiples of the slots it ranged over. -/
theorem evalBigXj_ok {P Pf : Type} [AddCommMonoid P] (L : Lib P Pf)
    (hAdd : ∀ a b s, L.Add a b = (s, false) → s = a + b)
    (hMul : ∀ p z, L.ScalarMult p z = z • p) (Vc : List P) (Pj : PartyID) :
    ∀ (k c : Nat) (X : P) (z : Nat) (cul : List PartyID) (X1 : P) (z1 : Nat),
      evalBigXj L Vc Pj c k (X, z, cul) = some (X1, z1, []) →
      1 ≤ c → z % L.N = Pj.Key ^ (c - 1) % L.N →
      cul = [] ∧ z1 % L.N = Pj.Key ^ (c + k - 1) % L.N ∧
      (1 ≤ k → z1 = Pj.Key ^ (c + k - 1) % L.N) ∧
      X1 = X + ∑ i in Finset.Ico c (c + k), (Pj.Key ^ i % L.N) • Vc.getD i 0 := by
  intro k
  induction k with
  | zero =>
    intro c X z cul X1 z1 h hc hz
    simp only [evalBigXj, Option.some.injEq, Prod.mk.injEq] at h
    obtain ⟨rfl, rfl, rfl⟩ := h
    simp [hz]
  | succ k ih =>
    intro c X z cul X1 z1 h hc hz
    simp only [evalBigXj] at h
    split at h
    · exact absurd h (by simp)
    · rename_i Vcc hVcc
      rcases hadd : L.Add X (L.ScalarMult Vcc (modQMul L.N z Pj.Key)) with ⟨sum, err⟩
      simp only [hadd] at h
      have hznew : modQMul L.N z Pj.Key = Pj.Key ^ c % L.N := by
        unfold modQMul
        rw [Nat.mul_mod, hz, ← Nat.mul_mod, ← pow_succ]
        congr 2
        omega
      have hz' : modQMul L.N z Pj.Key % L.N = Pj.Key ^ (c + 1 - 1) % L.N := by
        rw [hznew]
        simp
      obtain ⟨h1, h2, h2', h3⟩ := ih _ _ _ _ _ _ h (by omega) hz'
      obtain ⟨herr, hcul⟩ := append_if_eq_nil err cul Pj h1
      subst herr
      have hsum := hAdd _ _ _ hadd
      rw [hMul, hznew] at hsum
      have hidx : c + 1 + k - 1 = c + (k + 1) - 1 := by omega
      refine ⟨hcul, ?_, ?_, ?_⟩
      · rw [h2, hidx]
      · intro _
        rcases Nat.eq_zero_or_pos k with hk | hk
        · subst hk
          simp only [evalBigXj, Option.some.injEq, Prod.mk.injEq] at h
          rw [← h.2.1, hznew]
          simp
        · rw [h2' hk, hidx]
      · rw [h3, hsum, Finset.sum_eq_sum_Ico_succ_bot (by omega : c < c + (k + 1))]
        rw [List.get?_eq_getElem?] at hVcc
        have : Vc.getD c 0 = Vcc := by simp [List.getD_eq_getElem?_getD, hVcc]
        rw [this, add_assoc]
        have hidx : c + 1 + k = c + (k + 1) := by omega
        rw [hidx]


/-- The loop over the parties, when it reports no culprit: the slots it ranged over hold
the evaluation of the aggregated commitment polynomial at the party's key, the other
slots are untouched. -/
theorem computeBigXj_ok {P Pf : Type} [AddCommMonoid P] (L : Lib P Pf)
    (hAdd : ∀ a b s, L.Add a b = (s, false) → s = a + b)
    (hMul : ∀ p z, L.ScalarMult p z = z • p) (Ps : List PartyID) (Vc : List P) (t : Nat) :
    ∀ (k j : Nat) (bigXj : List (Option P)) (cul : List PartyID) (b1 : List (Option P)),
      computeBigXj L Ps Vc t j k (bigXj, cul) = some (b1, []) →
      cul = [] ∧ b1.length = bigXj.length ∧
      ∀ i, b1.get? i
        = if j ≤ i ∧ i < j + k then some (some (commitmentEval L.N Vc t (keyAt Ps i)))
          else bigXj.get? i := by
  intro k
  induction k with
  | zero =>
    intro j bigXj cul b1 h
    simp only [computeBigXj, Option.some.injEq, Prod.mk.injEq] at h
    obtain ⟨rfl, rfl⟩ := h
    refine ⟨rfl, rfl, fun i => ?_⟩
    have : ¬ (j ≤ i ∧ i < j + 0) := by omega
    rw [if_neg this]
  | succ k ih =>
    intro j bigXj cul b1 h
    simp only [computeBigXj] at h
    split at h
    · rename_i Pj Vc0 hPj hVc0
      split at h
      · exact absurd h (by simp)
      · rename_i BigXj z cul1 hev
        split at h
        · rename_i hjlt
          obtain ⟨h1, h2, h3⟩ := ih _ _ _ _ h
          subst h1
          obtain ⟨g1, -, -, g3⟩ := evalBigXj_ok L hAdd hMul Vc Pj _ _ _ _ _ _ _ hev
            (le_refl 1) (by simp)
          have hkey : keyAt Ps j = Pj.Key := by
            unfold keyAt
            rw [hPj]
            rfl
          have hval : BigXj = commitmentEval L.N Vc t (keyAt Ps j) := by
            rw [g3, hkey]
            unfold commitmentEval
            rw [List.get?_eq_getElem?] at hVc0
            have : Vc.getD 0 0 = Vc0 := by simp [List.getD_eq_getElem?_getD, hVc0]
            rw [this, Nat.add_comm 1 t]
          refine ⟨g1, by simpa using h2, fun i => ?_⟩
          rw [h3 i]
          by_cases hij : i = j
          · subst hij
            have h1' : ¬ (i + 1 ≤ i ∧ i < i + 1 + k) := by omega
            have h2' : i ≤ i ∧ i < i + (k + 1) := by omega
            rw [if_neg h1', if_pos h2', List.get?_eq_getElem?, List.getElem?_set]
            simp [hjlt, hval]
          · have hset : (bigXj.set j (some BigXj)).get? i = bigXj.get? i := by
              rw [List.get?_eq_getElem?, List.get?_eq_getElem?,
                List.getElem?_set_ne (Ne.symm hij)]
            rw [hset]
            by_cases hr : j + 1 ≤ i ∧ i < j + 1 + k
            · have : j ≤ i ∧ i < j + (k + 1) := by omega
              rw [if_pos hr, if_pos this]
            · have : ¬ (j ≤ i ∧ i < j + (k + 1)) := by omega
              rw [if_neg hr, if_neg this]
        · exact absurd h (by simp)
    · exact absurd h (by simp)

/-- The evaluation loop run for `k1 + k2` steps is the loop run for `k1` steps followed by
the loop run for `k2` steps. -/
theorem evalBigXj_add {P Pf : Type} (L : Lib P Pf) (Vc : List P) (Pj : PartyID) :
    ∀ (k1 k2 c : Nat) (acc : P × Nat × List PartyID),
      evalBigXj L Vc Pj c (k1 + k2) acc
        = (evalBigXj L Vc Pj c k1 acc).bind (evalBigXj L Vc Pj (c + k1) k2) := by
  intro k1
  induction k1 with
  | zero =>
    intro k2 c acc
    simp [evalBigXj]
  | succ k1 ih =>
    intro k2 c acc
    obtain ⟨X, z, cul⟩ := acc
    have : k1 + 1 + k2 = (k1 + k2) + 1 := by omega
    rw [this]
    simp only [evalBigXj]
    split
    · rfl
    · rw [ih]
      have : c + 1 + k1 = c + (k1 + 1) := by omega
      rw [this]

/-- The culprit list of the evaluation loop only grows. -/
theorem evalBigXj_culprits {P Pf : Type} (L : Lib P Pf) (Vc : List P) (Pj : PartyID) :
    ∀ (k c : Nat) (X : P) (z : Nat) (cul : List PartyID) (X1 : P) (z1 : Nat),
      evalBigXj L Vc Pj c k (X, z, cul) = some (X1, z1, []) → cul = [] := by
  intro k
  induction k with
  | zero =>
    intro c X z cul X1 z1 h
    simp only [evalBigXj, Option.some.injEq, Prod.mk.injEq] at h
    exact h.2.2
  | succ k ih =>
    intro c X z cul X1 z1 h
    simp only [evalBigXj] at h
    split at h
    · exact absurd h (by simp)
    · rename_i Vcc hVcc
      rcases hadd : L.Add X (L.ScalarMult Vcc (modQMul L.N z Pj.Key)) with ⟨sum, err⟩
      simp only [hadd] at h
      exact (append_if_eq_nil err cul Pj (ih _ _ _ _ _ _ h)).2


/-- The party loop returns only when the evaluation loop of every party it ranged over
returned. -/
theorem computeBigXj_runs {P Pf : Type} (L : Lib P Pf) (Ps : List PartyID) (Vc : List P)
    (t : Nat) :
    ∀ (k j : Nat) (bigXj : List (Option P)) (cul : List PartyID) (b1 : List (Option P)),
      computeBigXj L Ps Vc t j k (bigXj, cul) = some (b1, []) →
      cul = [] ∧
      ∀ i, j ≤ i → i < j + k →
        ∃ Pj v0 X z, Ps.get? i = some Pj ∧ Vc.get? 0 = some v0 ∧
          evalBigXj L Vc Pj 1 t (v0, 1, []) = some (X, z, []) := by
  intro k
  induction k with
  | zero =>
    intro j bigXj cul b1 h
    simp only [computeBigXj, Option.some.injEq, Prod.mk.injEq] at h
    exact ⟨h.2, fun i h1 h2 => by omega⟩
  | succ k ih =>
    intro j bigXj cul b1 h
    simp only [computeBigXj] at h
    split at h
    · rename_i Pj Vc0 hPj hVc0
      split at h
      · exact absurd h (by simp)
      · rename_i BigXj z cul1 hev
        split at h
        · obtain ⟨h1, h2⟩ := ih _ _ _ _ h
          subst h1
          have hcul := evalBigXj_culprits L Vc Pj _ _ _ _ _ _ _ hev
          subst hcul
          refine ⟨rfl, fun i hi1 hi2 => ?_⟩
          rcases Nat.eq_or_lt_of_le hi1 with rfl | hlt
          · exact ⟨Pj, Vc0, BigXj, z, hPj, hVc0, hev⟩
          · exact h2 i hlt (by omega)
        · exact absurd h (by simp)
    · exact absurd h (by simp)

/-- What a successful `Start` went through: the verification sweep found no culprit, the
commitment sweep and the party loop returned without culprit, the point built from the
coordinates of `Vc[0]` was accepted, and the round is left with `Xi`, `BigXj` and the
public key stored and the save record sent. -/
theorem start_success {P Pf : Type} (L : Lib P Pf) (round r1 : Round3 P)
    (hs : round.started = false) (h : Start L round = some (r1, none)) :
    ∃ xi Vc bigXj v0 pub,
      calcXi L.N round.temp round.PartyID.Index round.Parties = some xi ∧
      round.Threshold + 1 ≤ round.temp.vs.length ∧
      (∀ j, j < round.Parties.length → j ≠ round.PartyID.Index →
        (verifyPeer L round.temp round.PartyID round.Threshold j).isSome = true) ∧
      vssCulprits round.PartyID.Index 0 round.Parties
        ((List.range' 0 round.Parties.length).map
          (peerOut L round.temp round.PartyID round.Threshold)) = [] ∧
      aggregated L round = some (Vc, []) ∧
      computeBigXj L round.Parties Vc round.Threshold 0 round.PartyCount
        (round.save.BigXj, []) = some (bigXj, []) ∧
      Vc.get? 0 = some v0 ∧ L.NewECPoint (L.X v0) (L.Y v0) = some pub ∧
      r1 = afterSave round xi bigXj pub := by
  obtain ⟨xi, Vc0, results, hxi, hVc0, hres, hrest⟩ := start_cases L round r1 none hs h
  have hrun := runPeers_some L _ _ _ _ _ _ hres
  have hres' := runPeers_of_some L round.temp round.PartyID round.Threshold round.Parties 0 hrun
  rw [hres'] at hres
  have hresults := (Option.some.inj hres).symm
  subst hresults
  unfold initVc at hVc0
  split at hVc0
  · rename_i hlen
    have hVc0' := (Option.some.inj hVc0).symm
    subst hVc0'
    rcases hrest with ⟨-, -, he⟩ | ⟨hc, Vc, cul, hagg, ⟨-, -, he⟩ | ⟨hc1, bigXj, cul2, hbig,
      ⟨-, -, he⟩ | ⟨hc2, v0, hv0, ⟨-, -, he⟩ | ⟨pub, hnew, hr1, -⟩⟩⟩⟩
    · exact absurd he (by simp)
    · exact absurd he (by simp)
    · exact absurd he (by simp)
    · exact absurd he (by simp)
    · have e0 : vssCulprits round.PartyID.Index 0 round.Parties
          ((List.range' 0 round.Parties.length).map
            (peerOut L round.temp round.PartyID round.Threshold)) = [] := by
        apply List.eq_nil_of_length_eq_zero
        omega
      have e1 : cul = [] := by
        apply List.eq_nil_of_length_eq_zero
        omega
      have e2 : cul2 = [] := by
        apply List.eq_nil_of_length_eq_zero
        omega
      subst e1 e2
      exact ⟨xi, Vc, bigXj, v0, pub, hxi, hlen,
        fun j hj hne => hrun j (Nat.zero_le _) (by simpa using hj) hne,
        e0, hagg, hbig, hv0, hnew, hr1⟩
  · exact absurd hVc0 (by simp)


/-- Reading the first `n` entries of a list through `getD`. -/
theorem getD_take_of_lt {α : Type} (l : List α) (n c : Nat) (d : α) (h : c < n) :
    (l.take n).getD c d = l.getD c d := by
  simp [List.getD_eq_getElem?_getD, List.getElem?_take, h]

/-- C5: with a library whose successful `Add` is the group addition and whose
`NewECPoint` hands back the point whose coordinates it was given, when `Start` succeeds
the commitment sweep leaves a vector `Vc` with
`Vc[c] = V_self[c] + Σ_{j ≠ self} V_j[c]` for every `c ≤ t`, where `V_j` is peer `j`'s
decommitted, cofactor-cleared vector, and the saved public key is `Vc[0]`, the sum of
the constant-term commitments of all parties. -/
theorem start_aggregates_commitments {P Pf : Type} [AddCommMonoid P] (L : Lib P Pf)
    (round r1 : Round3 P)
    (hAdd : ∀ a b s, L.Add a b = (s, false) → s = a + b)
    (hNew : ∀ p p1, L.NewECPoint (L.X p) (L.Y p) = some p1 → p1 = p)
    (hs : round.started = false) (h : Start L round = some (r1, none)) :
    ∃ Vc : List P,
      aggregated L round = some (Vc, []) ∧ Vc.length = round.Threshold + 1 ∧
      (∀ c, c ≤ round.Threshold →
        Vc.getD c 0 = round.temp.vs.getD c 0 +
          ∑ j in (Finset.range round.Parties.length).filter
              (fun j => j ≠ round.PartyID.Index),
            (peerVs L round.temp round.PartyID round.Threshold j).getD c 0) ∧
      r1.save.EDDSAPub = some (Vc.getD 0 0) ∧
      r1.save.EDDSAPub = some (round.temp.vs.getD 0 0 +
          ∑ j in (Finset.range round.Parties.length).filter
              (fun j => j ≠ round.PartyID.Index),
            (peerVs L round.temp round.PartyID round.Threshold j).getD 0 0) := by
  obtain ⟨xi, Vc, bigXj, v0, pub, -, hlen, -, -, hagg, -, hv0, hnew, hr1⟩ :=
    start_success L round r1 hs h
  have hagg' := hagg
  unfold aggregated at hagg'
  obtain ⟨-, g2, g3⟩ := aggregateVc_ok L hAdd _ _ _ _ _ _ _ _ hagg'
  have hform : ∀ c, c ≤ round.Threshold →
      Vc.getD c 0 = round.temp.vs.getD c 0 +
        ∑ j in (Finset.range round.Parties.length).filter
            (fun j => j ≠ round.PartyID.Index),
          (peerVs L round.temp round.PartyID round.Threshold j).getD c 0 := by
    intro c hc
    rw [g3 c hc, getD_take_of_lt _ _ _ _ (by omega), Finset.sum_filter, Finset.range_eq_Ico,
      Nat.zero_add]
    congr 1
    apply Finset.sum_congr rfl
    intro i _
    by_cases hi : i = round.PartyID.Index <;> simp [hi, peerVs]
  have hpub : pub = Vc.getD 0 0 := by
    rw [hNew v0 pub hnew]
    rw [List.get?_eq_getElem?] at hv0
    simp [List.getD_eq_getElem?_getD, hv0]
  have hY : r1.save.EDDSAPub = some (Vc.getD 0 0) := by
    rw [hr1, ← hpub]
    rfl
  refine ⟨Vc, hagg, ?_, hform, hY, ?_⟩
  · rw [g2, List.length_take]
    omega
  · rw [hY, hform 0 (Nat.zero_le _)]

/-- C5 at a concrete input: party 0 of the three-party ceremony over `ZMod 7`. -/
theorem start_aggregates_commitments_witness :
    ∃ Vc : List (ZMod 7),
      aggregated modLib (demoRound 0) = some (Vc, []) ∧
      Vc.length = (demoRound 0).Threshold + 1 ∧
      (∀ c, c ≤ (demoRound 0).Threshold →
        Vc.getD c 0 = (demoRound 0).temp.vs.getD c 0 +
          ∑ j in (Finset.range (demoRound 0).Parties.length).filter
              (fun j => j ≠ (demoRound 0).PartyID.Index),
            (peerVs modLib (demoRound 0).temp (demoRound 0).PartyID
              (demoRound 0).Threshold j).getD c 0) ∧
      (afterSave (demoRound 0) 3 [some 3, some 5, some 0] 1).save.EDDSAPub
        = some (Vc.getD 0 0) ∧
      (afterSave (demoRound 0) 3 [some 3, some 5, some 0] 1).save.EDDSAPub
        = some ((demoRound 0).temp.vs.getD 0 0 +
          ∑ j in (Finset.range (demoRound 0).Parties.length).filter
              (fun j => j ≠ (demoRound 0).PartyID.Index),
            (peerVs modLib (demoRound 0).temp (demoRound 0).PartyID
              (demoRound 0).Threshold j).getD 0 0) :=
  start_aggregates_commitments modLib (demoRound 0)
    (afterSave (demoRound 0) 3 [some 3, some 5, some 0] 1)
    (fun a b s hab => by
      have := congrArg Prod.fst hab
      exact this.symm)
    (fun p p1 hp => by
      have h1 : (some ((p.val : Int) : ZMod 7) : Option (ZMod 7)) = some p1 := hp
      have h2 := Option.some.inj h1
      rw [← h2]
      simp)
    rfl (by decide)


/-- C6: with a library whose successful `Add` is the group addition and whose
`ScalarMult` is the scalar multiple, when `Start` succeeds the point stored for every
party index `j` is the aggregated commitment polynomial evaluated at `k_j`,
`Vc[0] + Σ_{c=1..t} (k_j^c mod q) · Vc[c]`; the evaluation loop run up to step `c`
returns with the multiplier `z = k_j^c mod q` and the partial evaluation; and for `t = 0`
the stored point is `Vc[0]`. -/
theorem start_bigX_is_evaluation {P Pf : Type} [AddCommMonoid P] (L : Lib P Pf)
    (round r1 : Round3 P)
    (hAdd : ∀ a b s, L.Add a b = (s, false) → s = a + b)
    (hMul : ∀ p z, L.ScalarMult p z = z • p)
    (hs : round.started = false) (h : Start L round = some (r1, none)) :
    ∃ Vc : List P,
      aggregated L round = some (Vc, []) ∧
      (∀ j, j < round.PartyCount →
        r1.save.BigXj.get? j
          = some (some (commitmentEval L.N Vc round.Threshold (keyAt round.Parties j)))) ∧
      (∀ j, j < round.PartyCount → ∀ c, c ≤ round.Threshold →
        ∃ Pj X z, round.Parties.get? j = some Pj ∧
          evalBigXj L Vc Pj 1 c (Vc.getD 0 0, 1, []) = some (X, z, []) ∧
          (1 ≤ c → z = Pj.Key ^ c % L.N) ∧ X = commitmentEval L.N Vc c Pj.Key) ∧
      (round.Threshold = 0 → ∀ j, j < round.PartyCount →
        r1.save.BigXj.get? j = some (some (Vc.getD 0 0))) := by
  obtain ⟨xi, Vc, bigXj, v0, pub, -, -, -, -, hagg, hbig, hv0, -, hr1⟩ :=
    start_success L round r1 hs h
  obtain ⟨-, -, g3⟩ := computeBigXj_ok L hAdd hMul _ _ _ _ _ _ _ _ hbig
  obtain ⟨-, hruns⟩ := computeBigXj_runs L _ _ _ _ _ _ _ _ hbig
  have hget : ∀ j, j < round.PartyCount →
      r1.save.BigXj.get? j
        = some (some (commitmentEval L.N Vc round.Threshold (keyAt round.Parties j))) := by
    intro j hj
    have hb : r1.save.BigXj = bigXj := by rw [hr1]; rfl
    rw [hb, g3 j, if_pos ⟨Nat.zero_le _, by omega⟩]
  have hv0' : Vc.getD 0 0 = v0 := by
    rw [List.get?_eq_getElem?] at hv0
    simp [List.getD_eq_getElem?_getD, hv0]
  refine ⟨Vc, hagg, hget, ?_, ?_⟩
  · intro j hj c hc
    obtain ⟨Pj, v0', X, z, hPj, hv0'', hev⟩ := hruns j (Nat.zero_le _) (by omega)
    rw [hv0] at hv0''
    have hveq := Option.some.inj hv0''
    subst hveq
    have hsplit : round.Threshold = c + (round.Threshold - c) := by omega
    rw [hsplit, evalBigXj_add] at hev
    obtain ⟨acc, hpre, hpost⟩ := Option.bind_eq_some.mp hev
    obtain ⟨X1, z1, cul1⟩ := acc
    have hcul := evalBigXj_culprits L Vc Pj _ _ _ _ _ _ _ hpost
    subst hcul
    obtain ⟨-, -, k2, k3⟩ := evalBigXj_ok L hAdd hMul Vc Pj _ _ _ _ _ _ _ hpre
      (le_refl 1) (by simp)
    refine ⟨Pj, X1, z1, hPj, by rw [hv0']; exact hpre, ?_, ?_⟩
    · intro hc1
      rw [k2 hc1]
      congr 2
      omega
    · rw [k3]
      unfold commitmentEval
      rw [hv0', Nat.add_comm 1 c]
  · intro ht j hj
    rw [hget j hj]
    unfold commitmentEval
    simp [ht]

/-- C6 at a concrete input: party 0 of the three-party ceremony over `ZMod 7`. -/
theorem start_bigX_is_evaluation_witness :
    ∃ Vc : List (ZMod 7),
      aggregated modLib (demoRound 0) = some (Vc, []) ∧
      (∀ j, j < (demoRound 0).PartyCount →
        (afterSave (demoRound 0) 3 [some 3, some 5, some 0] 1).save.BigXj.get? j
          = some (some (commitmentEval modLib.N Vc (demoRound 0).Threshold
              (keyAt (demoRound 0).Parties j)))) ∧
      (∀ j, j < (demoRound 0).PartyCount → ∀ c, c ≤ (demoRound 0).Threshold →
        ∃ Pj X z, (demoRound 0).Parties.get? j = some Pj ∧
          evalBigXj modLib Vc Pj 1 c (Vc.getD 0 0, 1, []) = some (X, z, []) ∧
          (1 ≤ c → z = Pj.Key ^ c % modLib.N) ∧ X = commitmentEval modLib.N Vc c Pj.Key) ∧
      ((demoRound 0).Threshold = 0 → ∀ j, j < (demoRound 0).PartyCount →
        (afterSave (demoRound 0) 3 [some 3, some 5, some 0] 1).save.BigXj.get? j
          = some (some (Vc.getD 0 0))) :=
  start_bigX_is_evaluation modLib (demoRound 0)
    (afterSave (demoRound 0) 3 [some 3, some 5, some 0] 1)
    (fun a b s hab => by
      have := congrArg Prod.fst hab
      exact this.symm)
    (fun _ _ => rfl) rfl (by decide)


/-- With an `Add` that never fails, the inner loop of the commitment sweep returns and
leaves the culprit list as it was. -/
theorem addPjVs_total {P Pf : Type} [AddCommMonoid P] (L : Lib P Pf)
    (hAdd : ∀ a b, L.Add a b = (a + b, false)) (Pj : PartyID) (PjVs : List P) :
    ∀ (k c : Nat) (Vc : List P) (cul : List PartyID),
      c + k ≤ Vc.length → c + k ≤ PjVs.length →
      ∃ Vc1, addPjVs L Pj PjVs c k (Vc, cul) = some (Vc1, cul) := by
  intro k
  induction k with
  | zero =>
    intro c Vc cul _ _
    exact ⟨Vc, rfl⟩
  | succ k ih =>
    intro c Vc cul h1 h2
    have hc1 : c < Vc.length := by omega
    have hc2 : c < PjVs.length := by omega
    obtain ⟨Vc1, hVc1⟩ := ih (c + 1) (Vc.set c (Vc[c] + PjVs[c])) cul
      (by simp only [List.length_set]; omega) (by omega)
    refine ⟨Vc1, ?_⟩
    simp only [addPjVs, List.get?_eq_getElem?, List.getElem?_eq_getElem hc1,
      List.getElem?_eq_getElem hc2, hAdd]
    simpa using hVc1

/-- With an `Add` that never fails and every peer's vector long enough, the commitment
sweep returns and leaves the culprit list as it was. -/
theorem aggregateVc_total {P Pf : Type} [AddCommMonoid P] (L : Lib P Pf)
    (hAdd : ∀ a b, L.Add a b = (a + b, false)) (PIdx t : Nat) (out : Nat → VssOut P) :
    ∀ (ps : List PartyID) (j : Nat) (Vc : List P) (cul : List PartyID),
      t + 1 ≤ Vc.length →
      (∀ i, j ≤ i → i < j + ps.length → i ≠ PIdx →
        ∃ vs, (out i).pjVs = some vs ∧ t + 1 ≤ vs.length) →
      ∃ Vc1, aggregateVc L PIdx t j ps ((List.range' j ps.length).map out) (Vc, cul)
        = some (Vc1, cul) := by
  intro ps
  induction ps with
  | nil =>
    intro j Vc cul _ _
    exact ⟨Vc, by simp [aggregateVc]⟩
  | cons p rest ih =>
    intro j Vc cul hlen hout
    have hrest : ∀ i, j + 1 ≤ i → i < j + 1 + rest.length → i ≠ PIdx →
        ∃ vs, (out i).pjVs = some vs ∧ t + 1 ≤ vs.length := by
      intro i h1 h2 h3
      exact hout i (by omega) (by simp only [List.length_cons]; omega) h3
    simp only [List.length_cons, List.range'_succ, List.map_cons, aggregateVc]
    by_cases hj : j = PIdx
    · simp only [hj, ↓reduceIte]
      have := ih (j + 1) Vc cul hlen hrest
      rw [hj] at this
      exact this
    · obtain ⟨vs, hvs, hvlen⟩ := hout j (le_refl _) (by simp) hj
      obtain ⟨Vc2, hVc2⟩ := addPjVs_total L hAdd p vs (t + 1) 0 Vc cul (by omega) (by omega)
      have hlen2 : t + 1 ≤ Vc2.length := by
        have : ∀ (k c : Nat) (V : List P) (cu : List PartyID) (V1 : List P)
            (cu1 : List PartyID),
            addPjVs L p vs c k (V, cu) = some (V1, cu1) → V1.length = V.length := by
          intro k
          induction k with
          | zero =>
            intro c V cu V1 cu1 h
            simp only [addPjVs, Option.some.injEq, Prod.mk.injEq] at h
            rw [h.1]
          | succ k ihk =>
            intro c V cu V1 cu1 h
            simp only [addPjVs] at h
            split at h
            · have := ihk _ _ _ _ _ h
              simpa using this
            · exact absurd h (by simp)
        rw [this _ _ _ _ _ _ hVc2]
        exact hlen
      obtain ⟨Vc1, hVc1⟩ := ih (j + 1) Vc2 cul hlen2 hrest
      refine ⟨Vc1, ?_⟩
      simp only [hj, ↓reduceIte, hvs, hVc2]
      exact hVc1

/-- With an `Add` that never fails, the evaluation loop returns and leaves the culprit
list as it was. -/
theorem evalBigXj_total {P Pf : Type} [AddCommMonoid P] (L : Lib P Pf)
    (hAdd : ∀ a b, L.Add a b = (a + b, false)) (Vc : List P) (Pj : PartyID) :
    ∀ (k c : Nat) (X : P) (z : Nat) (cul : List PartyID),
      c + k ≤ Vc.length →
      ∃ X1 z1, evalBigXj L Vc Pj c k (X, z, cul) = some (X1, z1, cul) := by
  intro k
  induction k with
  | zero =>
    intro c X z cul _
    exact ⟨X, z, rfl⟩
  | succ k ih =>
    intro c X z cul h
    have hc : c < Vc.length := by omega
    obtain ⟨X1, z1, h1⟩ := ih (c + 1)
      (X + L.ScalarMult Vc[c] (modQMul L.N z Pj.Key)) (modQMul L.N z Pj.Key) cul (by omega)
    refine ⟨X1, z1, ?_⟩
    simp only [evalBigXj, List.get?_eq_getElem?, List.getElem?_eq_getElem hc, hAdd]
    simpa using h1

/-- With an `Add` that never fails, the party loop returns and leaves the culprit list as
it was. -/
theorem computeBigXj_total {P Pf : Type} [AddCommMonoid P] (L : Lib P Pf)
    (hAdd : ∀ a b, L.Add a b = (a + b, false)) (Ps : List PartyID) (Vc : List P) (t : Nat)
    (hVc : t + 1 ≤ Vc.length) :
    ∀ (k j : Nat) (bigXj : List (Option P)) (cul : List PartyID),
      j + k ≤ Ps.length → j + k ≤ bigXj.length →
      ∃ b1, computeBigXj L Ps Vc t j k (bigXj, cul) = some (b1, cul) := by
  intro k
  induction k with
  | zero =>
    intro j bigXj cul _ _
    exact ⟨bigXj, rfl⟩
  | succ k ih =>
    intro j bigXj cul h1 h2
    have hj1 : j < Ps.length := by omega
    have hj2 : j < bigXj.length := by omega
    have h0 : 0 < Vc.length := by omega
    obtain ⟨X1, z1, hev⟩ := evalBigXj_total L hAdd Vc Ps[j] t 1 Vc[0] 1 cul (by omega)
    obtain ⟨b1, hb1⟩ := ih (j + 1) (bigXj.set j (some X1)) cul (by omega)
      (by simp only [List.length_set]; omega)
    refine ⟨b1, ?_⟩
    simp only [computeBigXj, List.get?_eq_getElem?, List.getElem?_eq_getElem hj1,
      List.getElem?_eq_getElem h0, hev, hj2, ↓reduceIte]
    exact hb1


/-- Completion of round 3 for one party: with a library whose `Add` never fails and whose
`NewECPoint` accepts the coordinates of a point, on a round that was not started whose
share phase returns `xi`, whose own commitment vector is long enough, all of whose peers
pass verification with a vector long enough, and whose committee and `BigXj` slice cover
the party count, `Start` returns no error and leaves the round with `xi`, the points of
the party loop and `Vc[0]` saved. -/
theorem start_total {P Pf : Type} [AddCommMonoid P] (L : Lib P Pf) (R : Round3 P)
    (hAdd : ∀ a b, L.Add a b = (a + b, false))
    (hNew : ∀ p, L.NewECPoint (L.X p) (L.Y p) = some p)
    (hs : R.started = false) (xi : Int)
    (hxi : calcXi L.N R.temp R.PartyID.Index R.Parties = some xi)
    (hvs : R.Threshold + 1 ≤ R.temp.vs.length)
    (hpeer : ∀ j, j < R.Parties.length → j ≠ R.PartyID.Index →
      ∃ vs, verifyPeer L R.temp R.PartyID R.Threshold j = some ⟨none, some vs⟩ ∧
        R.Threshold + 1 ≤ vs.length)
    (hcnt : R.PartyCount ≤ R.Parties.length)
    (hslots : R.PartyCount ≤ R.save.BigXj.length) :
    ∃ Vc bigXj, aggregated L R = some (Vc, []) ∧ Vc.length = R.Threshold + 1 ∧
      computeBigXj L R.Parties Vc R.Threshold 0 R.PartyCount (R.save.BigXj, [])
        = some (bigXj, []) ∧
      Start L R = some (afterSave R xi bigXj (Vc.getD 0 0), none) := by
  have hAdd' : ∀ a b s, L.Add a b = (s, false) → s = a + b := by
    intro a b s h
    rw [hAdd] at h
    exact (congrArg Prod.fst h).symm
  have hrun := runPeers_of_some L R.temp R.PartyID R.Threshold R.Parties 0
    (by
      intro i _ h2 h3
      obtain ⟨vs, hv, -⟩ := hpeer i (by simpa using h2) h3
      simp [hv])
  have hout : ∀ j, j < R.Parties.length → j ≠ R.PartyID.Index →
      ∃ vs, peerOut L R.temp R.PartyID R.Threshold j = ⟨none, some vs⟩ ∧
        R.Threshold + 1 ≤ vs.length := by
    intro j hj hne
    obtain ⟨vs, hv, hl⟩ := hpeer j hj hne
    exact ⟨vs, by simp [peerOut, hne, hv], hl⟩
  have hcul : vssCulprits R.PartyID.Index 0 R.Parties
      ((List.range' 0 R.Parties.length).map (peerOut L R.temp R.PartyID R.Threshold))
      = [] := by
    rw [vssCulprits_eq, List.map_eq_nil_iff, List.filter_eq_nil_iff]
    intro p hp
    have hlt := List.fst_lt_of_mem_enum hp
    by_cases hne : p.1 = R.PartyID.Index
    · simp [hne]
    · obtain ⟨vs, hv, -⟩ := hout p.1 hlt hne
      simp [hv]
  obtain ⟨Vc, hagg⟩ := aggregateVc_total L hAdd R.PartyID.Index R.Threshold
    (peerOut L R.temp R.PartyID R.Threshold) R.Parties 0
    (R.temp.vs.take (R.Threshold + 1)) []
    (by rw [List.length_take]; omega)
    (by
      intro i _ h2 h3
      obtain ⟨vs, hv, hl⟩ := hout i (by simpa using h2) h3
      exact ⟨vs, by rw [hv], hl⟩)
  obtain ⟨-, hlen, -⟩ := aggregateVc_ok L hAdd' _ _ _ _ _ _ _ _ hagg
  have hVclen : Vc.length = R.Threshold + 1 := by
    rw [hlen, List.length_take]
    omega
  obtain ⟨bigXj, hbig⟩ := computeBigXj_total L hAdd R.Parties Vc R.Threshold (by omega)
    R.PartyCount 0 R.save.BigXj [] (by omega) (by omega)
  have hv0 : Vc.get? 0 = some (Vc.getD 0 0) := by
    have h0 : 0 < Vc.length := by omega
    simp [List.getD_eq_getElem?_getD, List.get?_eq_getElem?, List.getElem?_eq_getElem h0]
  refine ⟨Vc, bigXj, hagg, hVclen, hbig, ?_⟩
  have hinit : initVc R.temp R.Threshold = some (R.temp.vs.take (R.Threshold + 1)) := by
    unfold initVc
    simp [hvs]
  unfold Start
  simp only [hs, Bool.false_eq_true, ↓reduceIte, hxi, hinit, hrun, hcul, List.length_nil,
    gt_iff_lt, Nat.lt_irrefl, hagg, hbig, hv0, hNew]
  rfl


/-- Lagrange interpolation at 0 over a field: the values at the nodes `v i`, `i ∈ S`, of a
polynomial with coefficients `A 0, ..., A t`, `t < |S|`, weighted by the Lagrange
coefficients at 0, sum to the constant coefficient. -/
theorem lagrange_at_zero {F : Type} [Field F] [DecidableEq F] (S : Finset ℕ) (v : ℕ → F)
    (hv : Set.InjOn v S) (A : ℕ → F) (t : ℕ) (hcard : t + 1 ≤ S.card) :
    ∑ i in S, (∏ j in S.erase i, v j * (v j - v i)⁻¹) * (∑ c in Finset.range (t + 1), A c * v i ^ c)
      = A 0 := by
  classical
  set f : Polynomial F :=
    ∑ c in Finset.range (t + 1), Polynomial.C (A c) * Polynomial.X ^ c with hf
  have heval : ∀ x, f.eval x = ∑ c in Finset.range (t + 1), A c * x ^ c := by
    intro x
    simp [hf, Polynomial.eval_finset_sum]
  have hdeg : f.degree < S.card := by
    have h1 : f.degree ≤ (t : WithBot ℕ) := by
      rw [hf]
      refine (Polynomial.degree_sum_le _ _).trans ?_
      apply Finset.sup_le
      intro c hc
      refine (Polynomial.degree_C_mul_X_pow_le c (A c)).trans ?_
      have : c ≤ t := by
        have := Finset.mem_range.mp hc
        omega
      exact_mod_cast this
    refine lt_of_le_of_lt h1 ?_
    exact_mod_cast (by omega : t < S.card)
  have hint := Lagrange.eq_interpolate (s := S) (v := v) hv hdeg
  have h0 : f.eval 0 = A 0 := by
    rw [heval, Finset.sum_range_succ']
    simp
  rw [← h0]
  conv_rhs => rw [hint]
  rw [Lagrange.interpolate_apply, Polynomial.eval_finset_sum]
  apply Finset.sum_congr rfl
  intro i hi
  rw [Polynomial.eval_mul, Polynomial.eval_C, heval, mul_comm]
  congr 1
  unfold Lagrange.basis
  rw [Polynomial.eval_prod]
  apply Finset.prod_congr rfl
  intro j _
  unfold Lagrange.basisDivisor
  simp only [Polynomial.eval_mul, Polynomial.eval_C, Polynomial.eval_sub, Polynomial.eval_X]
  rw [zero_sub, ← neg_sub (v j) (v i), inv_neg]
  ring

/-- The multiples of a point `G` with `N · G = 0` depend on the scalar modulo `N` only. -/
theorem nsmul_congr_zmod {P : Type} [AddCommMonoid P] (N : ℕ) (G : P) (hG : N • G = 0)
    (a b : ℕ) (h : (a : ZMod N) = (b : ZMod N)) : a • G = b • G := by
  have hmod : a % N = b % N := (ZMod.natCast_eq_natCast_iff' a b N).mp h
  have key : ∀ x : ℕ, x • G = (x % N) • G := by
    intro x
    conv_lhs => rw [← Nat.div_add_mod x N]
    rw [add_smul, Nat.mul_comm, mul_smul, hG, smul_zero, zero_add]
  rw [key a, key b, hmod]

/-- The list form of the polynomial value is the sum over the coefficient indices. -/
theorem polyEval_eq_sum (coef : Nat → Nat) (t x : Nat) :
    polyEval coef t x = ∑ c in Finset.range (t + 1), coef c * x ^ c := by
  unfold polyEval
  generalize t + 1 = n
  induction n with
  | zero => simp
  | succ n ih => rw [List.range_succ, List.map_append, List.sum_append, ih,
      Finset.sum_range_succ]; simp

/-- A sum over `range n` splits into the term at `i` and the sum of the other terms. -/
theorem sum_split_self {M : Type} [AddCommMonoid M] (n i : ℕ) (hi : i < n) (f : ℕ → M) :
    f i + ∑ j in Finset.Ico 0 n, (if j = i then 0 else f j) = ∑ j in Finset.range n, f j := by
  rw [Finset.range_eq_Ico]
  have hsplit : ∀ j ∈ Finset.Ico 0 n,
      f j = (if j = i then f i else 0) + (if j = i then 0 else f j) := by
    intro j _
    by_cases h : j = i <;> simp [h]
  rw [Finset.sum_congr rfl hsplit, Finset.sum_add_distrib, Finset.sum_ite_eq' (Finset.Ico 0 n) i]
  simp [hi]

/-- The sum of the shares sent to the key `k` commits to the aggregated commitment
polynomial evaluated at `k`. -/
theorem share_sum_commit {P : Type} [AddCommMonoid P] (N : ℕ) (G : P) (hG : N • G = 0)
    (n t k : ℕ) (coef : ℕ → ℕ → ℕ) :
    ((∑ m in Finset.range n, polyEval (coef m) t k % N) % N) • G
      = (∑ m in Finset.range n, coef m 0) • G
        + ∑ c in Finset.Ico 1 (t + 1), (k ^ c % N) • ((∑ m in Finset.range n, coef m c) • G) := by
  have hrhs : (∑ m in Finset.range n, coef m 0) • G
        + ∑ c in Finset.Ico 1 (t + 1), (k ^ c % N) • ((∑ m in Finset.range n, coef m c) • G)
      = ((∑ m in Finset.range n, coef m 0)
        + ∑ c in Finset.Ico 1 (t + 1), (k ^ c % N) * (∑ m in Finset.range n, coef m c)) • G := by
    rw [add_smul]
    congr 1
    rw [Finset.sum_smul]
    apply Finset.sum_congr rfl
    intro c _
    rw [mul_smul]
  rw [hrhs]
  apply nsmul_congr_zmod N G hG
  rw [ZMod.natCast_mod]
  push_cast
  simp only [ZMod.natCast_mod, polyEval_eq_sum]
  push_cast
  rw [Finset.sum_comm]
  rw [Finset.range_eq_Ico, Finset.sum_eq_sum_Ico_succ_bot (by omega : 0 < t + 1)]
  congr 1
  · simp
  · apply Finset.sum_congr rfl
    intro c _
    rw [Finset.mul_sum]
    apply Finset.sum_congr rfl
    intro m _
    ring

/-- Completion of an all-honest ceremony for party `i`: `Start` returns no error and
saves the sum of the shares sent to `i`, the sum of the constant-term commitments, and
for every `j` the aggregated commitment polynomial evaluated at `k_j`. -/
theorem honest_start {P Pf : Type} [AddCommGroup P] (L : Lib P Pf) (G : P)
    (Ps : List PartyID) (t : Nat) (coef : Nat → Nat → Nat) (round : Nat → Round3 P)
    (hH : HonestKeygen L G Ps t coef round) (i : Nat) (hi : i < Ps.length) :
    ∃ r1, Start L (round i) = some (r1, none) ∧
      r1.save.Xi = some (((∑ m in Finset.range Ps.length,
          polyEval (coef m) t (keyAt Ps i) % L.N) % L.N : Nat) : Int) ∧
      r1.save.EDDSAPub = some ((∑ m in Finset.range Ps.length, coef m 0) • G) ∧
      ∀ j, j < Ps.length → r1.save.BigXj.get? j
        = some (some ((∑ m in Finset.range Ps.length, coef m 0) • G
            + ∑ c in Finset.Ico 1 (t + 1),
                (keyAt Ps j ^ c % L.N) • ((∑ m in Finset.range Ps.length, coef m c) • G))) := by
  have hpar := hH.parties i hi
  have hidx := hH.index i hi
  have hthr := hH.threshold i hi
  have hcnt := hH.count i hi
  have hslots := hH.slots i hi
  have hAdd' : ∀ a b s, L.Add a b = (s, false) → s = a + b := by
    intro a b s h
    rw [hH.add_ok] at h
    exact (congrArg Prod.fst h).symm
  obtain ⟨sh, hsh1, hsh2⟩ := Option.map_eq_some'.mp (hH.own_share i hi)
  have hxi := calcXi_eq L.N (round i).temp i Ps sh
    (fun j => polyEval (coef j) t (keyAt Ps i) % L.N) hH.pos hsh1
    (fun j hj hne => hH.peer_share i hi j hj hne)
  have hvslen : t + 1 ≤ (round i).temp.vs.length := by
    have := hH.own_vs i hi t (by omega)
    rw [List.get?_eq_getElem?] at this
    have := (List.getElem?_eq_some_iff.mp this).1
    omega
  have hVj : ∀ j c, c < t + 1 →
      ((List.range (t + 1)).map (fun c => coef j c • G)).getD c 0 = coef j c • G := by
    intro j c hc
    simp [List.getD_eq_getElem?_getD, List.getElem?_map, List.getElem?_range hc]
  obtain ⟨Vc, bigXj, hagg, hVclen, hbig, hstart⟩ := start_total L (round i) hH.add_ok hH.new_ok
    (hH.started i hi) _ (by rw [hidx, hpar]; exact hxi) (by rw [hthr]; exact hvslen)
    (by
      intro j hj hne
      rw [hpar] at hj
      rw [hidx] at hne
      rw [hthr]
      exact ⟨_, hH.peer_vs i hi j hj hne, by simp⟩)
    (by rw [hcnt, hpar]) (by rw [hcnt, hslots])
  unfold aggregated at hagg
  obtain ⟨-, -, g3⟩ := aggregateVc_ok L hAdd' _ _ _ _ _ _ _ _ hagg
  obtain ⟨-, -, b3⟩ := computeBigXj_ok L hAdd' hH.mul_ok _ _ _ _ _ _ _ _ hbig
  have hVc : ∀ c, c < t + 1 →
      Vc.getD c 0 = (∑ m in Finset.range Ps.length, coef m c) • G := by
    intro c hc
    rw [g3 c (by rw [hthr]; omega), hthr, getD_take_of_lt _ _ _ _ hc, hpar, hidx,
      Finset.sum_smul, ← sum_split_self Ps.length i hi (fun m => coef m c • G), Nat.zero_add]
    congr 1
    · have := hH.own_vs i hi c hc
      rw [List.get?_eq_getElem?] at this
      simp [List.getD_eq_getElem?_getD, this]
    · apply Finset.sum_congr rfl
      intro j hj
      by_cases hji : j = i
      · simp [hji]
      · have hjlt : j < Ps.length := (Finset.mem_Ico.mp hj).2
        have hp := hH.peer_vs i hi j hjlt hji
        simp only [hji, ↓reduceIte, peerOut, hidx, hp, Option.getD_some]
        exact hVj j c hc
  refine ⟨_, hstart, ?_, ?_, ?_⟩
  · show some _ = some _
    congr 1
    rw [hsh2, Finset.sum_filter, Int.natCast_mod,
      ← sum_split_self Ps.length i hi (fun m => polyEval (coef m) t (keyAt Ps i) % L.N)]
    push_cast
    rw [Finset.range_eq_Ico]
    refine congrArg (fun a : Int => a % (L.N : Int)) ?_
    refine congrArg₂ (fun a b : Int => a + b) rfl (Finset.sum_congr rfl ?_)
    intro j _
    by_cases hji : j = i <;> simp [hji]
  · show some (Vc.getD 0 0) = some _
    rw [hVc 0 (by omega)]
  · intro j hj
    show bigXj.get? j = _
    rw [b3 j, if_pos ⟨Nat.zero_le _, by rw [hcnt]; omega⟩]
    unfold commitmentEval
    rw [hthr, hpar, hVc 0 (by omega)]
    congr 3
    apply Finset.sum_congr rfl
    intro c hc
    rw [hVc c (Finset.mem_Ico.mp hc).2]


/-- The three-party ceremony over `ZMod 7` is all-honest. -/
theorem demo_honest : HonestKeygen modLib (1 : ZMod 7) demoParties 1 demoCoef demoRound where
  pos := by decide
  order := by decide
  add_ok := fun _ _ => rfl
  mul_ok := fun _ _ => rfl
  new_ok := fun p => by
    show (some (((p.val : Nat) : Int) : ZMod 7) : Option (ZMod 7)) = some p
    simp
  enough := by decide
  started := by decide
  parties := by decide
  index := by decide
  count := by decide
  threshold := by decide
  slots := by decide
  own_share := by decide
  peer_share := by decide
  own_vs := by decide
  peer_vs := by decide

/-- C3: in an all-honest keygen, for every pair of parties `i`, `j` both `Start` calls
succeed, and the point `BigX_j` that party `i` stores is `X_j · G`, where `X_j` is the
secret scalar stored by party `j`'s own `Start`; so every party stores the same
`BigX_j`. -/
theorem honest_bigX_commits_to_share {P Pf : Type} [AddCommGroup P] (L : Lib P Pf) (G : P)
    (Ps : List PartyID) (t : Nat) (coef : Nat → Nat → Nat) (round : Nat → Round3 P)
    (hH : HonestKeygen L G Ps t coef round) (i j : Nat) (hi : i < Ps.length)
    (hj : j < Ps.length) :
    ∃ ri rj Xj, Start L (round i) = some (ri, none) ∧ Start L (round j) = some (rj, none) ∧
      rj.save.Xi = some Xj ∧ ri.save.BigXj.get? j = some (some (Xj • G)) := by
  obtain ⟨ri, hsi, -, -, hbi⟩ := honest_start L G Ps t coef round hH i hi
  obtain ⟨rj, hsj, hxj, -, -⟩ := honest_start L G Ps t coef round hH j hj
  refine ⟨ri, rj, _, hsi, hsj, hxj, ?_⟩
  rw [hbi j hj, natCast_zsmul,
    share_sum_commit L.N G hH.order Ps.length t (keyAt Ps j) coef]

/-- C3 at a concrete input: parties 0 and 1 of the three-party ceremony over `ZMod 7`. -/
theorem honest_bigX_commits_to_share_witness :
    ∃ ri rj Xj, Start modLib (demoRound 0) = some (ri, none) ∧
      Start modLib (demoRound 1) = some (rj, none) ∧
      rj.save.Xi = some Xj ∧ ri.save.BigXj.get? 1 = some (some (Xj • (1 : ZMod 7))) :=
  honest_bigX_commits_to_share modLib 1 demoParties 1 demoCoef demoRound demo_honest 0 1
    (by decide) (by decide)

/-- C2: in an all-honest keygen over a group of prime order with pairwise distinct key
scalars modulo the order, every party's `Start` succeeds, all parties save the same
public key `Y`, and for every set `S` of at least `t + 1` parties the saved scalars
`X_i` satisfy `(Σ_{i ∈ S} λ_i · X_i) · G = Y` with `λ_i` the Lagrange coefficients at 0
over the keys of `S`. -/
theorem honest_shares_reconstruct_key {P Pf : Type} [AddCommGroup P] (L : Lib P Pf) (G : P)
    (Ps : List PartyID) (t : Nat) (coef : Nat → Nat → Nat) (round : Nat → Round3 P)
    (hH : HonestKeygen L G Ps t coef round) (hp : L.N.Prime)
    (hinj : ∀ i, i < Ps.length → ∀ j, j < Ps.length →
      keyAt Ps i % L.N = keyAt Ps j % L.N → i = j)
    (S : Finset Nat) (hS : ∀ i ∈ S, i < Ps.length) (hcard : t + 1 ≤ S.card) :
    ∃ (X : Nat → Int) (Y : P),
      (∀ i, i < Ps.length → ∃ r1, Start L (round i) = some (r1, none) ∧
        r1.save.Xi = some (X i) ∧ r1.save.EDDSAPub = some Y) ∧
      (∑ i in S, lagrangeAtZero L.N (keyAt Ps) S i * ((X i : Int) : ZMod L.N)).val • G
        = Y := by
  haveI : Fact L.N.Prime := ⟨hp⟩
  refine ⟨fun i => (((∑ m in Finset.range Ps.length,
      polyEval (coef m) t (keyAt Ps i) % L.N) % L.N : Nat) : Int),
    (∑ m in Finset.range Ps.length, coef m 0) • G, ?_, ?_⟩
  · intro i hi
    obtain ⟨r1, hs, hx, hy, -⟩ := honest_start L G Ps t coef round hH i hi
    exact ⟨r1, hs, hx, hy⟩
  · apply nsmul_congr_zmod L.N G hH.order
    rw [ZMod.natCast_zmod_val]
    have hv : Set.InjOn (fun i => (keyAt Ps i : ZMod L.N)) (S : Set Nat) := by
      intro a ha b hb hab
      exact hinj a (hS a ha) b (hS b hb) ((ZMod.natCast_eq_natCast_iff' _ _ _).mp hab)
    have hL := lagrange_at_zero S (fun i => (keyAt Ps i : ZMod L.N)) hv
      (fun c => ∑ m in Finset.range Ps.length, (coef m c : ZMod L.N)) t hcard
    simp only at hL
    push_cast
    rw [← hL]
    apply Finset.sum_congr rfl
    intro i _
    unfold lagrangeAtZero
    congr 1
    simp only [ZMod.natCast_mod, polyEval_eq_sum]
    push_cast
    rw [Finset.sum_comm]
    apply Finset.sum_congr rfl
    intro c _
    rw [Finset.sum_mul]

/-- C2 at a concrete input: the three-party ceremony over `ZMod 7` with threshold 1 and
the subset of parties 0 and 1. -/
theorem honest_shares_reconstruct_key_witness :
    ∃ (X : Nat → Int) (Y : ZMod 7),
      (∀ i, i < demoParties.length → ∃ r1, Start modLib (demoRound i) = some (r1, none) ∧
        r1.save.Xi = some (X i) ∧ r1.save.EDDSAPub = some Y) ∧
      (∑ i in ({0, 1} : Finset Nat),
          lagrangeAtZero modLib.N (keyAt demoParties) {0, 1} i
            * ((X i : Int) : ZMod modLib.N)).val • (1 : ZMod 7) = Y :=
  honest_shares_reconstruct_key modLib 1 demoParties 1 demoCoef demoRound demo_honest
    (by decide) (by decide) {0, 1} (by decide) (by decide)

/-- The two shapes of a value sent by a verification goroutine: an error without a
vector, or no error with the cofactor-cleared vector. -/
theorem verifyPeer_cases {P Pf : Type} (L : Lib P Pf) (temp : LocalTempData P)
    (self : PartyID) (t j : Nat) (res : VssOut P)
    (h : verifyPeer L temp self t j = some res) :
    (∃ c, res = ⟨some c, none⟩) ∨
    (∃ unflat : List P, res = ⟨none, some (unflat.map L.EightInvEight)⟩) := by
  unfold verifyPeer at h
  cases hK : temp.KGCs.get? j with
  | none => simp only [hK, reduceCtorEq] at h
  | some KGCj =>
    cases hM : temp.kgRound2Message2s.get? j with
    | none => simp only [hK, hM, reduceCtorEq] at h
    | some om =>
      cases om with
      | none => simp only [hK, hM, reduceCtorEq] at h
      | some msg =>
        simp only [hK, hM] at h
        split at h
        · split at h
          · split at h
            · simp only [Option.some.injEq] at h
              exact Or.inl ⟨_, h.symm⟩
            · split at h
              · simp only [Option.some.injEq] at h
                exact Or.inl ⟨_, h.symm⟩
              · split at h
                · exact absurd h (by simp)
                · split at h
                  · simp only [Option.some.injEq] at h
                    exact Or.inl ⟨_, h.symm⟩
                  · split at h
                    · exact absurd h (by simp)
                    · split at h
                      · simp only [Option.some.injEq] at h
                        exact Or.inl ⟨_, h.symm⟩
                      · simp only [Option.some.injEq] at h
                        exact Or.inr ⟨_, h.symm⟩
          · simp only [Option.some.injEq] at h
            exact Or.inl ⟨_, h.symm⟩
        · exact absurd h (by simp)

/-- Every point of a vector handed to the aggregation went through cofactor clearing. -/
theorem peerVs_cleared {P Pf : Type} (L : Lib P Pf) (temp : LocalTempData P)
    (self : PartyID) (t j : Nat) :
    ∀ p ∈ peerVs L temp self t j, ∃ q, p = L.EightInvEight q := by
  intro p hp
  unfold peerVs peerOut at hp
  split at hp
  · simp at hp
  · cases hv : verifyPeer L temp self t j with
    | none => simp [hv] at hp
    | some res =>
      rw [hv] at hp
      rcases verifyPeer_cases L temp self t j res hv with ⟨c, rfl⟩ | ⟨unflat, rfl⟩
      · simp at hp
      · simp only [Option.getD_some, List.mem_map] at hp
        obtain ⟨q, -, rfl⟩ := hp
        exact ⟨q, rfl⟩

/-- An entry read with default 0 from a list of points of order dividing `N` has order
dividing `N`. -/
theorem nsmul_getD_zero {P : Type} [AddCommMonoid P] (N : Nat) (l : List P) (c : Nat)
    (h : ∀ p ∈ l, N • p = 0) : N • l.getD c 0 = 0 := by
  rw [List.getD_eq_getElem?_getD]
  cases hc : l[c]? with
  | none => simp
  | some p =>
    simp only [Option.getD_some]
    exact h p (List.getElem?_mem hc)

/-- C12: with a library whose successful `Add` is the group addition, whose `ScalarMult`
is the scalar multiple and whose `NewECPoint` hands back the point whose coordinates it was
given, if our own commitment points have order dividing `N` and cofactor clearing maps
every point to a point of order dividing `N`, then after a successful `Start` the saved
public key and the point `BigX_j` of every party index `j` multiplied by `N` are the
identity. -/
theorem start_saves_subgroup_points {P Pf : Type} [AddCommMonoid P] (L : Lib P Pf)
    (round r1 : Round3 P)
    (hAdd : ∀ a b s, L.Add a b = (s, false) → s = a + b)
    (hMul : ∀ p z, L.ScalarMult p z = z • p)
    (hNew : ∀ p p1, L.NewECPoint (L.X p) (L.Y p) = some p1 → p1 = p)
    (hOwn : ∀ c, c ≤ round.Threshold → L.N • round.temp.vs.getD c 0 = 0)
    (hClear : ∀ p, L.N • L.EightInvEight p = 0)
    (hs : round.started = false) (h : Start L round = some (r1, none)) :
    (∃ Y, r1.save.EDDSAPub = some Y ∧ L.N • Y = 0) ∧
    ∀ j, j < round.PartyCount →
      ∃ X, r1.save.BigXj.get? j = some (some X) ∧ L.N • X = 0 := by
  obtain ⟨xi, Vc, bigXj, v0, pub, -, hlen, -, -, hagg, hbig, hv0, hnew, hr1⟩ :=
    start_success L round r1 hs h
  unfold aggregated at hagg
  obtain ⟨-, -, g3⟩ := aggregateVc_ok L hAdd _ _ _ _ _ _ _ _ hagg
  obtain ⟨-, -, b3⟩ := computeBigXj_ok L hAdd hMul _ _ _ _ _ _ _ _ hbig
  have hVc : ∀ c, c ≤ round.Threshold → L.N • Vc.getD c 0 = 0 := by
    intro c hc
    rw [g3 c hc, smul_add, getD_take_of_lt _ _ _ _ (by omega), hOwn c hc, zero_add,
      Finset.smul_sum]
    apply Finset.sum_eq_zero
    intro i _
    split
    · simp
    · exact nsmul_getD_zero L.N _ c (fun p hp => by
        obtain ⟨q, rfl⟩ := peerVs_cleared L round.temp round.PartyID round.Threshold i p hp
        exact hClear q)
  have hv0' : Vc.getD 0 0 = v0 := by
    rw [List.get?_eq_getElem?] at hv0
    simp [List.getD_eq_getElem?_getD, hv0]
  constructor
  · refine ⟨pub, by rw [hr1]; rfl, ?_⟩
    rw [hNew v0 pub hnew, ← hv0']
    exact hVc 0 (Nat.zero_le _)
  · intro j hj
    refine ⟨commitmentEval L.N Vc round.Threshold (keyAt round.Parties j), ?_, ?_⟩
    · have hb : r1.save.BigXj = bigXj := by rw [hr1]; rfl
      rw [hb, b3 j, if_pos ⟨Nat.zero_le _, by omega⟩]
    · unfold commitmentEval
      rw [smul_add, hVc 0 (Nat.zero_le _), zero_add, Finset.smul_sum]
      apply Finset.sum_eq_zero
      intro c hc
      rw [smul_comm, hVc c (by have := (Finset.mem_Ico.mp hc).2; omega), smul_zero]

/-- C12 at a concrete input: party 0 of the three-party ceremony over `ZMod 7`. -/
theorem start_saves_subgroup_points_witness :
    (∃ Y, (afterSave (demoRound 0) 3 [some 3, some 5, some 0] 1).save.EDDSAPub = some Y ∧
      modLib.N • Y = 0) ∧
    ∀ j, j < (demoRound 0).PartyCount →
      ∃ X, (afterSave (demoRound 0) 3 [some 3, some 5, some 0] 1).save.BigXj.get? j
          = some (some X) ∧ modLib.N • X = 0 :=
  start_saves_subgroup_points modLib (demoRound 0)
    (afterSave (demoRound 0) 3 [some 3, some 5, some 0] 1)
    (fun a b s hab => by
      have := congrArg Prod.fst hab
      exact this.symm)
    (fun _ _ => rfl)
    (fun p p1 hp => by
      have h1 : (some ((p.val : Int) : ZMod 7) : Option (ZMod 7)) = some p1 := hp
      have h2 := Option.some.inj h1
      rw [← h2]
      simp)
    (by decide) (by decide) rfl (by decide)

/-- The verification error of `Start`: on a round that was not started whose share,
commitment and verification phases do not panic, if some peer's verification fails then
`Start` returns, with only `xi` saved, the error that bundles the causes and names the
failing peers. -/
theorem start_vss_error {P Pf : Type} (L : Lib P Pf) (round : Round3 P) (xi : Int)
    (hs : round.started = false)
    (hxi : calcXi L.N round.temp round.PartyID.Index round.Parties = some xi)
    (hvc : (initVc round.temp round.Threshold).isSome = true)
    (hrun : ∀ j, j < round.Parties.length → j ≠ round.PartyID.Index →
      (verifyPeer L round.temp round.PartyID round.Threshold j).isSome = true)
    (hfail : ∃ j, j < round.Parties.length ∧ j ≠ round.PartyID.Index ∧
      peerFailed L round.temp round.PartyID round.Threshold j = true) :
    Start L round = some (afterXi round xi,
      some (WrapError
        (((List.range' 0 round.Parties.length).map
          (peerOut L round.temp round.PartyID round.Threshold)).filterMap
            (fun res => res.unWrappedErr))
        ((round.Parties.enum.filter
          (fun p => decide (p.1 ≠ round.PartyID.Index) &&
            peerFailed L round.temp round.PartyID round.Threshold p.1)).map Prod.snd))) := by
  obtain ⟨Vc0, hvc'⟩ := Option.isSome_iff_exists.mp hvc
  have hrun' := runPeers_of_some L round.temp round.PartyID round.Threshold round.Parties 0
    (by intro i _ h2 h3; exact hrun i (by simpa using h2) h3)
  have hcul := vssCulprits_eq round.PartyID.Index
    (peerOut L round.temp round.PartyID round.Threshold) round.Parties 0
  have hpos : 0 < (vssCulprits round.PartyID.Index 0 round.Parties
      ((List.range' 0 round.Parties.length).map
        (peerOut L round.temp round.PartyID round.Threshold))).length := by
    rw [hcul]
    obtain ⟨j, hj1, hj2, hj3⟩ := hfail
    apply List.length_pos_of_mem (a := round.Parties.get ⟨j, hj1⟩)
    apply List.mem_map.mpr
    refine ⟨(j, round.Parties.get ⟨j, hj1⟩), ?_, rfl⟩
    apply List.mem_filter.mpr
    constructor
    · show (j, round.Parties.get ⟨j, hj1⟩) ∈ round.Parties.enum
      rw [List.mk_mem_enum_iff_getElem?]
      simp [List.getElem?_eq_getElem hj1]
    · simp only [peerFailed] at hj3
      simp [hj2, hj3]
  unfold Start
  simp only [hs, Bool.false_eq_true, ↓reduceIte, hxi, hvc', hrun', hpos, gt_iff_lt]
  rw [hcul]
  rfl

/-- C11, counterexample: party 0 of the three-party ceremony. When both peers send a share
that is off by one, `Start` returns an error and `Xi`, empty before the call, holds 5; and
with a library whose `Add` fails on the identity, which happens in the last addition of
the party loop, `Start` returns the error of that loop and the slots 0 and 1 of `BigXj`,
empty before the call, hold the points computed for parties 0 and 1. -/
theorem start_error_leaves_partial_state :
    (demoRoundWith (fun _ => 1) 0).save.Xi = none ∧
    (Start modLib (demoRoundWith (fun _ => 1) 0)).map (fun x => (x.2.isSome, x.1.save.Xi))
      = some (true, some 5) ∧
    (demoRound 0).save.BigXj = [none, none, none] ∧
    (Start zeroFailLib (demoRound 0)).map (fun x => (x.2, x.1.save.BigXj.take 2))
      = some (some ⟨[.addBigXjOffCurve], [⟨2, 3⟩]⟩, [some 3, some 5]) := by
  refine ⟨by decide, by decide, by decide, by decide⟩

/-- C11, amended: whenever `Start` returns an error, the saved public key is the one from
before the call and nothing was sent on the terminal or on the outbound channel; unless
the error is that of the party loop or of the public-key check, `BigXj` is the one from
before the call as well; on a round that was already started nothing at all changed, and
on any other round `Xi` holds the new share sum. -/
theorem start_error_keeps_key {P Pf : Type} (L : Lib P Pf) (round r1 : Round3 P)
    (e : TssError) (h : Start L round = some (r1, some e)) :
    r1.save.EDDSAPub = round.save.EDDSAPub ∧ r1.endCh = round.endCh ∧
    r1.out = round.out ∧
    (e.causes = [.addBigXjOffCurve] ∨ e.causes = [.pubKeyOffCurve] ∨
      r1.save.BigXj = round.save.BigXj) ∧
    (round.started = true → r1 = round) ∧
    (round.started = false →
      r1.save.Xi = calcXi L.N round.temp round.PartyID.Index round.Parties) := by
  cases hs : round.started with
  | true =>
    unfold Start at h
    simp only [hs, ↓reduceIte, Option.some.injEq, Prod.mk.injEq] at h
    obtain ⟨rfl, -⟩ := h
    simp
  | false =>
    obtain ⟨xi, Vc0, results, hxi, -, -, hrest⟩ := start_cases L round r1 (some e) hs h
    rw [hxi]
    rcases hrest with ⟨-, rfl, -⟩ | ⟨-, Vc, cul, -, ⟨-, rfl, -⟩ | ⟨-, bigXj, cul2, -,
      ⟨-, rfl, he⟩ | ⟨-, v0, -, ⟨-, rfl, he⟩ | ⟨pub, -, -, he⟩⟩⟩⟩
    · exact ⟨rfl, rfl, rfl, Or.inr (Or.inr rfl), fun h => absurd h (by simp), fun _ => rfl⟩
    · exact ⟨rfl, rfl, rfl, Or.inr (Or.inr rfl), fun h => absurd h (by simp), fun _ => rfl⟩
    · have he' := Option.some.inj he
      subst he'
      exact ⟨rfl, rfl, rfl, Or.inl rfl, fun h => absurd h (by simp), fun _ => rfl⟩
    · have he' := Option.some.inj he
      subst he'
      exact ⟨rfl, rfl, rfl, Or.inr (Or.inl rfl), fun h => absurd h (by simp), fun _ => rfl⟩
    · exact absurd he (by simp)

/-- C11, amended, at a concrete input: party 0 of the three-party ceremony when both peers
send a share that is off by one. -/
theorem start_error_keeps_key_witness :
    (afterXi (demoRoundWith (fun _ => 1) 0) 5).save.EDDSAPub
      = (demoRoundWith (fun _ => 1) 0).save.EDDSAPub ∧
    (afterXi (demoRoundWith (fun _ => 1) 0) 5).endCh = (demoRoundWith (fun _ => 1) 0).endCh ∧
    (afterXi (demoRoundWith (fun _ => 1) 0) 5).out = (demoRoundWith (fun _ => 1) 0).out ∧
    ((⟨[.vssVerifyFailed, .vssVerifyFailed], [⟨1, 2⟩, ⟨2, 3⟩]⟩ : TssError).causes
        = [.addBigXjOffCurve] ∨
      (⟨[.vssVerifyFailed, .vssVerifyFailed], [⟨1, 2⟩, ⟨2, 3⟩]⟩ : TssError).causes
        = [.pubKeyOffCurve] ∨
      (afterXi (demoRoundWith (fun _ => 1) 0) 5).save.BigXj
        = (demoRoundWith (fun _ => 1) 0).save.BigXj) ∧
    ((demoRoundWith (fun _ => 1) 0).started = true →
      afterXi (demoRoundWith (fun _ => 1) 0) 5 = demoRoundWith (fun _ => 1) 0) ∧
    ((demoRoundWith (fun _ => 1) 0).started = false →
      (afterXi (demoRoundWith (fun _ => 1) 0) 5).save.Xi
        = calcXi modLib.N (demoRoundWith (fun _ => 1) 0).temp
            (demoRoundWith (fun _ => 1) 0).PartyID.Index
            (demoRoundWith (fun _ => 1) 0).Parties) :=
  start_error_keeps_key modLib (demoRoundWith (fun _ => 1) 0)
    (afterXi (demoRoundWith (fun _ => 1) 0) 5)
    ⟨[.vssVerifyFailed, .vssVerifyFailed], [⟨1, 2⟩, ⟨2, 3⟩]⟩ (by decide)

/-- C19, the code at the failing input: party 0 of the three-party ceremony with
threshold 1 and a library whose `Add` fails whenever the point added is `5 · G`. Both
points of the vector of peer 2, the last peer of the sweep, are `5 · G`, both additions
fail, and the error of the commitment sweep lists peer 2 twice. -/
theorem sweep_lists_peer_twice :
    (Start oneFailLib (demoRound 0)).map (fun x => x.2)
      = some (some ⟨[.addPjVsOffCurve], [⟨2, 3⟩, ⟨2, 3⟩]⟩) := by
  decide

/-- A peer whose goroutine sent the error `c` is named in the error of `Start`, which
carries `c`; `Start` returns with only `xi` saved, and no vector of the peer was handed
on. -/
theorem start_names_rejected_peer {P Pf : Type} (L : Lib P Pf) (round : Round3 P)
    (xi : Int) (j : Nat) (Pj : PartyID) (c : Cause)
    (hs : round.started = false)
    (hxi : calcXi L.N round.temp round.PartyID.Index round.Parties = some xi)
    (hvc : (initVc round.temp round.Threshold).isSome = true)
    (hrun : ∀ i, i < round.Parties.length → i ≠ round.PartyID.Index →
      (verifyPeer L round.temp round.PartyID round.Threshold i).isSome = true)
    (hj : j < round.Parties.length) (hne : j ≠ round.PartyID.Index)
    (hPj : round.Parties.get? j = some Pj)
    (hv : verifyPeer L round.temp round.PartyID round.Threshold j = some ⟨some c, none⟩) :
    ∃ e, Start L round = some (afterXi round xi, some e) ∧ Pj ∈ e.culprits ∧
      c ∈ e.causes ∧ peerVs L round.temp round.PartyID round.Threshold j = [] := by
  have hout : peerOut L round.temp round.PartyID round.Threshold j = ⟨some c, none⟩ := by
    simp [peerOut, hne, hv]
  have hfailed : peerFailed L round.temp round.PartyID round.Threshold j = true := by
    simp [peerFailed, hout]
  refine ⟨_, start_vss_error L round xi hs hxi hvc hrun ⟨j, hj, hne, hfailed⟩, ?_, ?_, ?_⟩
  · simp only [WrapError]
    apply List.mem_map.mpr
    refine ⟨(j, Pj), ?_, rfl⟩
    apply List.mem_filter.mpr
    constructor
    · rw [List.mk_mem_enum_iff_getElem?, ← List.get?_eq_getElem?]
      exact hPj
    · simp [hne, hfailed]
  · simp only [WrapError]
    apply List.mem_filterMap.mpr
    refine ⟨peerOut L round.temp round.PartyID round.Threshold j, ?_, by rw [hout]⟩
    apply List.mem_map.mpr
    exact ⟨j, by simp [List.mem_range', hj], rfl⟩
  · simp [peerVs, hout]

/-- C18: the error recorded for peer `j` is that of the first failing check, in the order
decommitment opens, points decode, proof unmarshals, proof verifies, share verifies; each
conjunct fixes the outcome of the earlier checks and of the failing one only. In
particular a peer whose decommitment opens and decodes and whose proof unmarshals but does
not verify is recorded with the proof error, whatever its share, and a peer that passes
those checks and whose share fails the VSS check is recorded with the VSS error. Any
peer recorded with an error is a culprit of the error `Start` returns, which carries the
recorded cause; `Start` then returns before the aggregation, with only `xi` saved, and no
vector of that peer was handed on. -/
theorem verification_order {P Pf : Type} (L : Lib P Pf) (round : Round3 P) (xi : Int)
    (j : Nat) (Pj : PartyID) (KGCj : Nat) (msg : ParsedMessage Content)
    (KGDj proofBytes : List Nat)
    (hs : round.started = false)
    (hxi : calcXi L.N round.temp round.PartyID.Index round.Parties = some xi)
    (hvc : (initVc round.temp round.Threshold).isSome = true)
    (hrun : ∀ i, i < round.Parties.length → i ≠ round.PartyID.Index →
      (verifyPeer L round.temp round.PartyID round.Threshold i).isSome = true)
    (hj : j < round.Parties.length) (hne : j ≠ round.PartyID.Index)
    (hPj : round.Parties.get? j = some Pj)
    (hC : round.temp.KGCs.get? j = some KGCj)
    (hmsg : round.temp.kgRound2Message2s.get? j = some (some msg))
    (hcont : msg.Content = .kgRound2Message2 KGDj proofBytes) :
    ((∀ flat, L.DeCommit KGCj KGDj ≠ (true, some flat)) →
      verifyPeer L round.temp round.PartyID round.Threshold j
        = some ⟨some .deCommitFailed, none⟩) ∧
    (∀ flat err, L.DeCommit KGCj KGDj = (true, some flat) →
      L.UnFlattenECPoints flat = .error err →
      verifyPeer L round.temp round.PartyID round.Threshold j = some ⟨some err, none⟩) ∧
    (∀ flat unflat, L.DeCommit KGCj KGDj = (true, some flat) →
      L.UnFlattenECPoints flat = .ok unflat → L.UnmarshalZKProof proofBytes = none →
      verifyPeer L round.temp round.PartyID round.Threshold j
        = some ⟨some .proofUnmarshalFailed, none⟩) ∧
    (∀ flat unflat proof v0, L.DeCommit KGCj KGDj = (true, some flat) →
      L.UnFlattenECPoints flat = .ok unflat → L.UnmarshalZKProof proofBytes = some proof →
      (unflat.map L.EightInvEight).get? 0 = some v0 → L.ProofVerify proof v0 = false →
      verifyPeer L round.temp round.PartyID round.Threshold j
        = some ⟨some .proofVerifyFailed, none⟩) ∧
    (∀ flat unflat proof v0 share, L.DeCommit KGCj KGDj = (true, some flat) →
      L.UnFlattenECPoints flat = .ok unflat → L.UnmarshalZKProof proofBytes = some proof →
      (unflat.map L.EightInvEight).get? 0 = some v0 → L.ProofVerify proof v0 = true →
      r2msg1Share round.temp j = some share →
      L.ShareVerify ⟨round.Threshold, round.PartyID.Key, share⟩ round.Threshold
        (unflat.map L.EightInvEight) = false →
      verifyPeer L round.temp round.PartyID round.Threshold j
        = some ⟨some .vssVerifyFailed, none⟩) ∧
    (∀ c, verifyPeer L round.temp round.PartyID round.Threshold j = some ⟨some c, none⟩ →
      ∃ e, Start L round = some (afterXi round xi, some e) ∧ Pj ∈ e.culprits ∧
        c ∈ e.causes ∧ peerVs L round.temp round.PartyID round.Threshold j = []) := by
  refine ⟨?_, ?_, ?_, ?_, ?_, ?_⟩
  · intro hd
    unfold verifyPeer
    simp only [hC, hmsg, hcont]
  · intro flat err h1 h2
    unfold verifyPeer
    simp only [hC, hmsg, hcont, h1, h2]
  · intro flat unflat h1 h2 h3
    unfold verifyPeer
    simp only [hC, hmsg, hcont, h1, h2, h3]
  · intro flat unflat proof v0 h1 h2 h3 h4 h5
    unfold verifyPeer
    simp only [hC, hmsg, hcont, h1, h2, h3, h4, h5, Bool.not_false, ↓reduceIte]
  · intro flat unflat proof v0 share h1 h2 h3 h4 h5 h6 h7
    unfold verifyPeer
    simp only [hC, hmsg, hcont, h1, h2, h3, h4, h5, h6, h7, Bool.not_true, Bool.not_false,
      Bool.false_eq_true, ↓reduceIte]
  · intro c hv
    exact start_names_rejected_peer L round xi j Pj c hs hxi hvc hrun hj hne hPj hv

/-- C18 at a concrete input: peer 1 as seen by party 0 of the three-party ceremony when
both peers send a share that is off by one. -/
theorem verification_order_witness :
    ((∀ flat, modLib.DeCommit 2 [1, 1] ≠ (true, some flat)) →
      verifyPeer modLib tamperedRound.temp tamperedRound.PartyID tamperedRound.Threshold 1
        = some ⟨some .deCommitFailed, none⟩) ∧
    (∀ flat err, modLib.DeCommit 2 [1, 1] = (true, some flat) →
      modLib.UnFlattenECPoints flat = .error err →
      verifyPeer modLib tamperedRound.temp tamperedRound.PartyID tamperedRound.Threshold 1
        = some ⟨some err, none⟩) ∧
    (∀ flat unflat, modLib.DeCommit 2 [1, 1] = (true, some flat) →
      modLib.UnFlattenECPoints flat = .ok unflat → modLib.UnmarshalZKProof [1] = none →
      verifyPeer modLib tamperedRound.temp tamperedRound.PartyID tamperedRound.Threshold 1
        = some ⟨some .proofUnmarshalFailed, none⟩) ∧
    (∀ flat unflat proof v0, modLib.DeCommit 2 [1, 1] = (true, some flat) →
      modLib.UnFlattenECPoints flat = .ok unflat → modLib.UnmarshalZKProof [1] = some proof →
      (unflat.map modLib.EightInvEight).get? 0 = some v0 →
      modLib.ProofVerify proof v0 = false →
      verifyPeer modLib tamperedRound.temp tamperedRound.PartyID tamperedRound.Threshold 1
        = some ⟨some .proofVerifyFailed, none⟩) ∧
    (∀ flat unflat proof v0 share, modLib.DeCommit 2 [1, 1] = (true, some flat) →
      modLib.UnFlattenECPoints flat = .ok unflat → modLib.UnmarshalZKProof [1] = some proof →
      (unflat.map modLib.EightInvEight).get? 0 = some v0 →
      modLib.ProofVerify proof v0 = true →
      r2msg1Share tamperedRound.temp 1 = some share →
      modLib.ShareVerify ⟨tamperedRound.Threshold, tamperedRound.PartyID.Key, share⟩
        tamperedRound.Threshold (unflat.map modLib.EightInvEight) = false →
      verifyPeer modLib tamperedRound.temp tamperedRound.PartyID tamperedRound.Threshold 1
        = some ⟨some .vssVerifyFailed, none⟩) ∧
    (∀ c, verifyPeer modLib tamperedRound.temp tamperedRound.PartyID
        tamperedRound.Threshold 1 = some ⟨some c, none⟩ →
      ∃ e, Start modLib tamperedRound = some (afterXi tamperedRound 5, some e) ∧
        (⟨1, 2⟩ : PartyID) ∈ e.culprits ∧ c ∈ e.causes ∧
        peerVs modLib tamperedRound.temp tamperedRound.PartyID tamperedRound.Threshold 1
          = []) :=
  verification_order modLib tamperedRound 5 1 ⟨1, 2⟩ 2 demoMsg2 [1, 1] [1]
    rfl (by decide) (by decide) (by decide) (by decide) (by decide) (by decide) (by decide)
    (by decide) rfl

/-- The inner loop of the commitment sweep returns whenever `Vc` and the peer's vector
cover the indices it reads, whatever `Add` reports, and keeps the length of `Vc`. -/
theorem addPjVs_returns {P Pf : Type} (L : Lib P Pf) (Pj : PartyID) (PjVs : List P) :
    ∀ (k c : Nat) (Vc : List P) (cul : List PartyID),
      c + k ≤ Vc.length → c + k ≤ PjVs.length →
      ∃ Vc1 cul1, addPjVs L Pj PjVs c k (Vc, cul) = some (Vc1, cul1) ∧
        Vc1.length = Vc.length := by
  intro k
  induction k with
  | zero =>
    intro c Vc cul _ _
    exact ⟨Vc, cul, rfl, rfl⟩
  | succ k ih =>
    intro c Vc cul h1 h2
    have hc1 : c < Vc.length := by omega
    have hc2 : c < PjVs.length := by omega
    obtain ⟨Vc1, cul1, hVc1, hlen⟩ := ih (c + 1) (Vc.set c (L.Add Vc[c] PjVs[c]).1)
      (if (L.Add Vc[c] PjVs[c]).2 then cul ++ [Pj] else cul)
      (by simp only [List.length_set]; omega) (by omega)
    refine ⟨Vc1, cul1, ?_, by simpa using hlen⟩
    simp only [addPjVs, List.get?_eq_getElem?, List.getElem?_eq_getElem hc1,
      List.getElem?_eq_getElem hc2]
    exact hVc1

/-- The commitment sweep returns whenever `Vc` holds `t + 1` points and every slot other
than ours holds a vector of at least `t + 1` points, whatever `Add` reports, and keeps the
length of `Vc`. -/
theorem aggregateVc_returns {P Pf : Type} (L : Lib P Pf) (PIdx t : Nat)
    (out : Nat → VssOut P) :
    ∀ (ps : List PartyID) (j : Nat) (Vc : List P) (cul : List PartyID),
      t + 1 ≤ Vc.length →
      (∀ i, j ≤ i → i < j + ps.length → i ≠ PIdx →
        ∃ vs, (out i).pjVs = some vs ∧ t + 1 ≤ vs.length) →
      ∃ Vc1 cul1, aggregateVc L PIdx t j ps ((List.range' j ps.length).map out) (Vc, cul)
        = some (Vc1, cul1) ∧ Vc1.length = Vc.length := by
  intro ps
  induction ps with
  | nil =>
    intro j Vc cul _ _
    exact ⟨Vc, cul, by simp [aggregateVc], rfl⟩
  | cons p rest ih =>
    intro j Vc cul hlen hout
    have hrest : ∀ i, j + 1 ≤ i → i < j + 1 + rest.length → i ≠ PIdx →
        ∃ vs, (out i).pjVs = some vs ∧ t + 1 ≤ vs.length := by
      intro i h1 h2 h3
      exact hout i (by omega) (by simp only [List.length_cons]; omega) h3
    simp only [List.length_cons, List.range'_succ, List.map_cons, aggregateVc]
    by_cases hj : j = PIdx
    · simp only [hj, ↓reduceIte]
      have := ih (j + 1) Vc cul hlen hrest
      rw [hj] at this
      exact this
    · obtain ⟨vs, hvs, hvlen⟩ := hout j (le_refl _) (by simp) hj
      obtain ⟨Vc2, cul2, hVc2, hlen2⟩ :=
        addPjVs_returns L p vs (t + 1) 0 Vc cul (by omega) (by omega)
      obtain ⟨Vc1, cul1, hVc1, hlen1⟩ := ih (j + 1) Vc2 cul2 (by omega) hrest
      refine ⟨Vc1, cul1, ?_, by omega⟩
      simp only [hj, ↓reduceIte, hvs, hVc2]
      exact hVc1

/-- The evaluation loop returns whenever `Vc` covers the indices it reads, whatever `Add`
reports. -/
theorem evalBigXj_returns {P Pf : Type} (L : Lib P Pf) (Vc : List P) (Pj : PartyID) :
    ∀ (k c : Nat) (acc : P × Nat × List PartyID),
      c + k ≤ Vc.length → ∃ r, evalBigXj L Vc Pj c k acc = some r := by
  intro k
  induction k with
  | zero =>
    intro c acc _
    exact ⟨acc, rfl⟩
  | succ k ih =>
    intro c acc h
    obtain ⟨X, z, cul⟩ := acc
    have hc : c < Vc.length := by omega
    simp only [evalBigXj, List.get?_eq_getElem?, List.getElem?_eq_getElem hc]
    exact ih (c + 1) _ (by omega)

/-- The party loop returns whenever `Vc` holds `t + 1` points and the committee and the
slice `bigXj` cover the indices it visits, whatever `Add` reports. -/
theorem computeBigXj_returns {P Pf : Type} (L : Lib P Pf) (Ps : List PartyID) (Vc : List P)
    (t : Nat) (hVc : t + 1 ≤ Vc.length) :
    ∀ (k j : Nat) (acc : List (Option P) × List PartyID),
      j + k ≤ Ps.length → j + k ≤ acc.1.length →
      ∃ r, computeBigXj L Ps Vc t j k acc = some r := by
  intro k
  induction k with
  | zero =>
    intro j acc _ _
    exact ⟨acc, rfl⟩
  | succ k ih =>
    intro j acc h1 h2
    obtain ⟨bigXj, cul⟩ := acc
    simp only at h2
    have hj1 : j < Ps.length := by omega
    have hj2 : j < bigXj.length := by omega
    have h0 : 0 < Vc.length := by omega
    obtain ⟨⟨X1, z1, cul1⟩, hev⟩ := evalBigXj_returns L Vc Ps[j] t 1 (Vc[0], 1, cul) (by omega)
    simp only [computeBigXj, List.get?_eq_getElem?, List.getElem?_eq_getElem hj1,
      List.getElem?_eq_getElem h0, hev, hj2, ↓reduceIte]
    exact ih (j + 1) _ (by omega) (by simp only [List.length_set]; omega)

/-- No panic after the share phase: on a round that was not started whose share phase
returns, whose own commitment vector holds `t + 1` points, whose verification goroutines
all send a value, the vector of every peer that passes holding `t + 1` points, and whose
committee and `BigXj` slice cover the party count, `Start` returns. -/
theorem start_returns {P Pf : Type} (L : Lib P Pf) (round : Round3 P) (xi : Int)
    (hs : round.started = false)
    (hxi : calcXi L.N round.temp round.PartyID.Index round.Parties = some xi)
    (hvs : round.Threshold + 1 ≤ round.temp.vs.length)
    (hrun : ∀ j, j < round.Parties.length → j ≠ round.PartyID.Index →
      (verifyPeer L round.temp round.PartyID round.Threshold j).isSome = true)
    (hlen : ∀ j, j < round.Parties.length → j ≠ round.PartyID.Index →
      peerFailed L round.temp round.PartyID round.Threshold j = false →
      round.Threshold + 1 ≤ (peerVs L round.temp round.PartyID round.Threshold j).length)
    (hcnt : round.PartyCount ≤ round.Parties.length)
    (hslots : round.PartyCount ≤ round.save.BigXj.length) :
    ∃ r1 e, Start L round = some (r1, e) := by
  have hinit : initVc round.temp round.Threshold
      = some (round.temp.vs.take (round.Threshold + 1)) := by
    unfold initVc
    simp [hvs]
  have hrun' := runPeers_of_some L round.temp round.PartyID round.Threshold round.Parties 0
    (by intro i _ h2 h3; exact hrun i (by simpa using h2) h3)
  have hcul := vssCulprits_eq round.PartyID.Index
    (peerOut L round.temp round.PartyID round.Threshold) round.Parties 0
  unfold Start
  simp only [hs, Bool.false_eq_true, ↓reduceIte, hxi, hinit, hrun', gt_iff_lt]
  split
  · exact ⟨_, _, rfl⟩
  · rename_i hc
    have hnil : vssCulprits round.PartyID.Index 0 round.Parties
        ((List.range' 0 round.Parties.length).map
          (peerOut L round.temp round.PartyID round.Threshold)) = [] := by
      apply List.eq_nil_of_length_eq_zero
      omega
    rw [hcul, List.map_eq_nil_iff, List.filter_eq_nil_iff] at hnil
    have hout : ∀ i, 0 ≤ i → i < 0 + round.Parties.length → i ≠ round.PartyID.Index →
        ∃ vs, (peerOut L round.temp round.PartyID round.Threshold i).pjVs = some vs ∧
          round.Threshold + 1 ≤ vs.length := by
      intro i _ hi hne
      have hi' : i < round.Parties.length := by simpa using hi
      have hmem : (i, round.Parties.get ⟨i, hi'⟩) ∈ round.Parties.enumFrom 0 := by
        show (i, round.Parties.get ⟨i, hi'⟩) ∈ round.Parties.enum
        rw [List.mk_mem_enum_iff_getElem?]
        simp [List.getElem?_eq_getElem hi']
      have hnf := hnil _ hmem
      have hnf' : peerFailed L round.temp round.PartyID round.Threshold i = false := by
        simp only [peerFailed]
        simpa [hne] using hnf
      have hl := hlen i hi' hne hnf'
      obtain ⟨res, hres⟩ := Option.isSome_iff_exists.mp (hrun i hi' hne)
      have hpo : peerOut L round.temp round.PartyID round.Threshold i = res := by
        simp [peerOut, hne, hres]
      rcases verifyPeer_cases L round.temp round.PartyID round.Threshold i res hres with
        ⟨c, hc'⟩ | ⟨unflat, hu⟩
      · rw [peerFailed, hpo, hc'] at hnf'
        simp at hnf'
      · refine ⟨unflat.map L.EightInvEight, by rw [hpo, hu], ?_⟩
        simpa [peerVs, hpo, hu] using hl
    obtain ⟨Vc1, cul1, hagg, hVlen⟩ := aggregateVc_returns L round.PartyID.Index
      round.Threshold (peerOut L round.temp round.PartyID round.Threshold) round.Parties 0
      (round.temp.vs.take (round.Threshold + 1)) []
      (by rw [List.length_take]; omega) hout
    have hV : round.Threshold + 1 ≤ Vc1.length := by
      rw [hVlen, List.length_take]
      omega
    simp only [hagg]
    split
    · exact ⟨_, _, rfl⟩
    · obtain ⟨⟨bigXj, cul2⟩, hbig⟩ := computeBigXj_returns L round.Parties Vc1
        round.Threshold hV round.PartyCount 0 (round.save.BigXj, []) (by omega)
        (by simpa using hslots)
      simp only [hbig]
      split
      · exact ⟨_, _, rfl⟩
      · have h0 : 0 < Vc1.length := by omega
        simp only [List.get?_eq_getElem?, List.getElem?_eq_getElem h0]
        split
        · exact ⟨_, _, rfl⟩
        · exact ⟨_, _, rfl⟩

/-- C4: on a round that was not started, with a positive group order, our own share in
place and the share of every peer readable from its round-2 message, the scalar `Xi` that
`Start` saves is our own share plus the shares of all peers, reduced modulo the group
order, and it is canonical; the share phase returns it, every return of `Start`, with or
without error, leaves it in the save record, and `Start` does return with it saved
whenever the later phases do not panic: our own commitment vector holds `t + 1` points,
every verification goroutine sends a value, the vector of every peer that passes holds
`t + 1` points, and the committee and the `BigXj` slice cover the party count. -/
theorem start_saves_share_sum {P Pf : Type} (L : Lib P Pf) (round : Round3 P) (own : Share)
    (s : Nat → Nat) (hs : round.started = false) (hN : 0 < L.N)
    (hown : round.temp.shares.get? round.PartyID.Index = some own)
    (hpeer : ∀ j, j < round.Parties.length → j ≠ round.PartyID.Index →
      r2msg1Share round.temp j = some (s j)) :
    ∃ Xi : Int,
      Xi = (own.Share + ∑ j in (Finset.range round.Parties.length).filter
              (fun j => j ≠ round.PartyID.Index), (s j : Int)) % (L.N : Int) ∧
      0 ≤ Xi ∧ Xi < (L.N : Int) ∧
      calcXi L.N round.temp round.PartyID.Index round.Parties = some Xi ∧
      (∀ r1 e, Start L round = some (r1, e) → r1.save.Xi = some Xi) ∧
      (round.Threshold + 1 ≤ round.temp.vs.length →
        (∀ j, j < round.Parties.length → j ≠ round.PartyID.Index →
          (verifyPeer L round.temp round.PartyID round.Threshold j).isSome = true) →
        (∀ j, j < round.Parties.length → j ≠ round.PartyID.Index →
          peerFailed L round.temp round.PartyID round.Threshold j = false →
          round.Threshold + 1
            ≤ (peerVs L round.temp round.PartyID round.Threshold j).length) →
        round.PartyCount ≤ round.Parties.length →
        round.PartyCount ≤ round.save.BigXj.length →
        ∃ r1 e, Start L round = some (r1, e) ∧ r1.save.Xi = some Xi) := by
  have hNi : (L.N : Int) ≠ 0 := by exact_mod_cast Nat.pos_iff_ne_zero.mp hN
  have hcalc := calcXi_eq L.N round.temp round.PartyID.Index round.Parties own s hN hown hpeer
  have hall : ∀ r1 e, Start L round = some (r1, e) → r1.save.Xi
      = some ((own.Share + ∑ j in (Finset.range round.Parties.length).filter
              (fun j => j ≠ round.PartyID.Index), (s j : Int)) % (L.N : Int)) := by
    intro r1 e h
    obtain ⟨xi, Vc0, results, hxi, -, -, hrest⟩ := start_cases L round r1 e hs h
    rw [hcalc] at hxi
    have hxi' := Option.some.inj hxi
    subst hxi'
    rcases hrest with ⟨-, rfl, -⟩ | ⟨-, Vc, cul, -, ⟨-, rfl, -⟩ | ⟨-, bigXj, cul2, -,
      ⟨-, rfl, -⟩ | ⟨-, v0, -, ⟨-, rfl, -⟩ | ⟨pub, -, rfl, -⟩⟩⟩⟩ <;> rfl
  refine ⟨_, rfl, Int.emod_nonneg _ hNi, Int.emod_lt_of_pos _ (by exact_mod_cast hN), hcalc,
    hall, ?_⟩
  intro hvs hrun hlen hcnt hslots
  obtain ⟨r1, e, hret⟩ := start_returns L round _ hs hcalc hvs hrun hlen hcnt hslots
  exact ⟨r1, e, hret, hall r1 e hret⟩

/-- C4 at a concrete input: party 0 of the three-party ceremony over `ZMod 7`, where
`Start` returns with `Xi = 3` saved. -/
theorem start_saves_share_sum_witness :
    (∃ Xi : Int,
      Xi = ((5 : Int) + ∑ j in (Finset.range (demoRound 0).Parties.length).filter
              (fun j => j ≠ (demoRound 0).PartyID.Index),
              ((polyEval (demoCoef j) 1 1 % 7 : Nat) : Int)) % ((modLib.N : Nat) : Int) ∧
      0 ≤ Xi ∧ Xi < (modLib.N : Int) ∧
      calcXi modLib.N (demoRound 0).temp (demoRound 0).PartyID.Index (demoRound 0).Parties
        = some Xi ∧
      (∀ r1 e, Start modLib (demoRound 0) = some (r1, e) → r1.save.Xi = some Xi) ∧
      ∃ r1 e, Start modLib (demoRound 0) = some (r1, e) ∧ r1.save.Xi = some Xi) ∧
    (Start modLib (demoRound 0)).bind (fun x => x.1.save.Xi) = some 3 ∧
    (Start modLib tamperedRound).bind (fun x => x.1.save.Xi) = some 5 :=
  ⟨(start_saves_share_sum modLib (demoRound 0) ⟨1, 1, 5⟩
      (fun j => polyEval (demoCoef j) 1 1 % 7) rfl (by decide) (by decide) (by decide)).imp
    (fun _ h => ⟨h.1, h.2.1, h.2.2.1, h.2.2.2.1, h.2.2.2.2.1,
      h.2.2.2.2.2 (by decide) (by decide) (by decide) (by decide) (by decide)⟩),
   by decide, by decide⟩

end Keygen

/-! ## Theorems about both rounds -/

/-- C8: `Start` is one-shot. On a keygen round 3 and on a resharing round 1 whose started
flag is already set, `Start` returns an error with an empty culprit list and hands back
the round unchanged: state, temp data, save record (`Xi`, `BigXj`, `Y`), and the lists of
values sent on the outbound and terminal channels. -/
theorem start_already_started {P Pf Q : Type} (Lk : Keygen.Lib P Pf) (r3 : Keygen.Round3 P)
    (Lr : Resharing.Lib Q) (r1 : Resharing.Round1 Q)
    (h3 : r3.started = true) (h1 : r1.started = true) :
    (∃ e, Keygen.Start Lk r3 = some (r3, some e) ∧ e.culprits = []) ∧
    (∃ e, Resharing.Start Lr r1 = some (r1, some e) ∧ e.culprits = []) := by
  constructor
  · refine ⟨WrapError [.alreadyStarted] [], ?_, rfl⟩
    unfold Keygen.Start
    simp [h3]
  · refine ⟨WrapError [.alreadyStarted] [], ?_, rfl⟩
    unfold Resharing.Start
    simp [h1]

/-- C8 at a concrete input: party 0 of the three-party keygen after its round 3 has been
started, and the new-committee resharing party after `Start` and one `Update`. -/
theorem start_already_started_witness :
    (∃ e, Keygen.Start Keygen.modLib (Keygen.afterXi (Keygen.demoRound 0) 3)
        = some (Keygen.afterXi (Keygen.demoRound 0) 3, some e) ∧ e.culprits = []) ∧
    (∃ e, Resharing.Start Resharing.intLib Resharing.acceptedRound
        = some (Resharing.acceptedRound, some e) ∧ e.culprits = []) :=
  start_already_started Keygen.modLib (Keygen.afterXi (Keygen.demoRound 0) 3)
    Resharing.intLib Resharing.acceptedRound rfl rfl

/-- C14: keygen round 3 is terminal. `CanAccept` is false for every message, `Update`
returns `(false, nil)` and the round unchanged, `NextRound` returns `nil`; and whenever
`Start` returns, nothing was sent on the outbound channel, and the save record was sent
on the terminal channel, once, exactly when no error is returned. -/
theorem round3_is_terminal {P Pf : Type} (L : Keygen.Lib P Pf) (round : Keygen.Round3 P)
    (msg : ParsedMessage Keygen.Content) :
    Keygen.CanAccept round msg = false ∧
    Keygen.Update round = (round, false, none) ∧
    Keygen.NextRound round = none ∧
    ∀ r1 e, Keygen.Start L round = some (r1, e) →
      r1.out = round.out ∧
      (e = none → r1.endCh = round.endCh ++ [r1.save]) ∧
      (e ≠ none → r1.endCh = round.endCh) := by
  refine ⟨rfl, rfl, rfl, ?_⟩
  intro r1 e h
  cases hs : round.started with
  | true =>
    unfold Keygen.Start at h
    simp only [hs, ↓reduceIte, Option.some.injEq, Prod.mk.injEq] at h
    obtain ⟨rfl, rfl⟩ := h
    simp
  | false =>
    obtain ⟨xi, Vc0, results, -, -, -, hrest⟩ := Keygen.start_cases L round r1 e hs h
    rcases hrest with ⟨-, rfl, rfl⟩ | ⟨-, Vc, cul, -, ⟨-, rfl, rfl⟩ | ⟨-, bigXj, cul2, -,
      ⟨-, rfl, rfl⟩ | ⟨-, v0, -, ⟨-, rfl, rfl⟩ | ⟨pub, -, rfl, rfl⟩⟩⟩⟩
    · exact ⟨rfl, fun h => absurd h (by simp), fun _ => rfl⟩
    · exact ⟨rfl, fun h => absurd h (by simp), fun _ => rfl⟩
    · exact ⟨rfl, fun h => absurd h (by simp), fun _ => rfl⟩
    · exact ⟨rfl, fun h => absurd h (by simp), fun _ => rfl⟩
    · exact ⟨rfl, fun _ => rfl, fun h => absurd rfl h⟩

/-- C16, counterexample: the resharing round-1 object after `Start` and one `Update` has
its started flag set; `NextRound` clears it. -/
theorem nextRound_clears_started :
    Resharing.acceptedRound.started = true ∧
    (Resharing.NextRound Resharing.acceptedRound).started = false := by
  refine ⟨by decide, by decide⟩

/-- C16, amended: on a keygen round 3 and on a resharing round 1 whose started flag is
set, `Start` and `Update` leave the flag set, and keygen `NextRound` returns the terminal
`nil` without a round to change; resharing `NextRound` is the one operation that clears
the flag, on the object it hands to round 2. -/
theorem started_stays_set {P Pf Q : Type} (Lk : Keygen.Lib P Pf) (r3 : Keygen.Round3 P)
    (Lr : Resharing.Lib Q) (r1 : Resharing.Round1 Q)
    (h3 : r3.started = true) (h1 : r1.started = true) :
    (∀ r e, Keygen.Start Lk r3 = some (r, e) → r.started = true) ∧
    (Keygen.Update r3).1.started = true ∧
    Keygen.NextRound r3 = none ∧
    (∀ r e, Resharing.Start Lr r1 = some (r, e) → r.started = true) ∧
    (∀ r res, Resharing.Update Lr r1 = some (r, res) → r.started = true) ∧
    (Resharing.NextRound r1).started = false := by
  refine ⟨?_, h3, rfl, ?_, ?_, rfl⟩
  · intro r e h
    unfold Keygen.Start at h
    simp only [h3, ↓reduceIte, Option.some.injEq, Prod.mk.injEq] at h
    rw [← h.1]
    exact h3
  · intro r e h
    unfold Resharing.Start at h
    simp only [h1, ↓reduceIte, Option.some.injEq, Prod.mk.injEq] at h
    rw [← h.1]
    exact h1
  · intro r res h
    rw [(Resharing.update_keeps_true_slots Lr r1 r res h).2.2]
    exact h1

/-- C16, amended, at a concrete input: party 0 of the three-party keygen after its round 3
has been started, and the new-committee resharing party after `Start` and one
`Update`. -/
theorem started_stays_set_witness :
    (∀ r e, Keygen.Start Keygen.modLib (Keygen.afterXi (Keygen.demoRound 0) 3) = some (r, e) →
      r.started = true) ∧
    (Keygen.Update (Keygen.afterXi (Keygen.demoRound 0) 3)).1.started = true ∧
    Keygen.NextRound (Keygen.afterXi (Keygen.demoRound 0) 3) = none ∧
    (∀ r e, Resharing.Start Resharing.intLib Resharing.acceptedRound = some (r, e) →
      r.started = true) ∧
    (∀ r res, Resharing.Update Resharing.intLib Resharing.acceptedRound = some (r, res) →
      r.started = true) ∧
    (Resharing.NextRound Resharing.acceptedRound).started = false :=
  started_stays_set Keygen.modLib (Keygen.afterXi (Keygen.demoRound 0) 3)
    Resharing.intLib Resharing.acceptedRound rfl rfl

end TssLib
